import Mathlib

/-!
# Verification of the V(R) I/O scheduler core (`src/block/vr-iosched.c`)

Shallow embedding of the scheduler's data model and operations.

The source file is a fragment mixing the SIO and V(R) elevators.  The parts
present in the source are embedded directly:
* `sio_merged_requests` (the merge handler),
* the fifo half of `vr_add_request` (expire stamping + `list_add_tail`),
* `vr_exit_queue` (`BUG_ON(!RB_EMPTY_ROOT(..))`),
* `vr_init_queue` (zeroed allocation, fifo heads, `RB_ROOT`, defaults),
* the sysfs `STORE_FUNCTION`/`SHOW_FUNCTION` clamp-and-store pattern.

The dispatch function (`vr_dispatch_requests`), `cancel` and the `NotFound`
checks of the external interface are not present in the fragment; they are
modelled from the spec (§4.4, §6) and carry a doc comment saying so.

Machine integers: the C `int` tunables are modelled as `Nat` clamped to
`[0, INT_MAX]` at the store boundary (the stored values are always
non-negative after clamping).  `jiffies` is a monotone `Nat` clock passed in
by the caller.  `HZ` is the kernel tick rate; we fix `HZ = 1000`, under which
`msecs_to_jiffies`/`jiffies_to_msecs` are exact.
-/

/-- Request direction (`rq_data_dir`): read or write. -/
inductive Dir where
  | read
  | write
deriving DecidableEq, Repr

/-- Synchronicity class (`rq_is_sync`). -/
inductive SyncClass where
  | sync
  | async
deriving DecidableEq, Repr

/-- A block request: the fields of `struct request` the scheduler core uses.
`expire` is the absolute fifo expiration stamp (`rq_fifo_time`). -/
structure Request where
  id : Nat
  sector : Nat
  len : Nat
  dir : Dir
  sync : SyncClass
  expire : Nat
deriving DecidableEq, Repr

/-- The four deadline fifo queues, `fifo_list[2][2]` of `struct sio_data`,
indexed by (sync|async) × (read|write). -/
structure Fifos where
  syncRead : List Request
  syncWrite : List Request
  asyncRead : List Request
  asyncWrite : List Request
deriving DecidableEq, Repr

/-- The queue for a given class. -/
def Fifos.get (f : Fifos) (c : SyncClass) (d : Dir) : List Request :=
  match c, d with
  | .sync, .read => f.syncRead
  | .sync, .write => f.syncWrite
  | .async, .read => f.asyncRead
  | .async, .write => f.asyncWrite

/-- Update only the queue of a given class. -/
def Fifos.update (f : Fifos) (c : SyncClass) (d : Dir)
    (g : List Request → List Request) : Fifos :=
  match c, d with
  | .sync, .read => { f with syncRead := g f.syncRead }
  | .sync, .write => { f with syncWrite := g f.syncWrite }
  | .async, .read => { f with asyncRead := g f.asyncRead }
  | .async, .write => { f with asyncWrite := g f.asyncWrite }

/-- Apply the same transformation to every queue (the merge handler walks the
list node of a request wherever it is). -/
def Fifos.app (f : Fifos) (g : List Request → List Request) : Fifos :=
  ⟨g f.syncRead, g f.syncWrite, g f.asyncRead, g f.asyncWrite⟩

/-- All fifo entries, concatenated. -/
def Fifos.all (f : Fifos) : List Request :=
  f.syncRead ++ f.syncWrite ++ f.asyncRead ++ f.asyncWrite

/-- Kernel tick rate.  Fixed at 1000 ticks per second, under which the
millisecond/jiffy boundary conversions are exact. -/
def HZ : Nat := 1000

/-- C `INT_MAX`, the upper clamp bound of the sysfs store functions. -/
def intMax : Nat := 2147483647

/-- `msecs_to_jiffies` (round-up division, as in the kernel). -/
def msecsToJiffies (m : Nat) : Nat := (m * HZ + 999) / 1000

/-- `jiffies_to_msecs`. -/
def jiffiesToMsecs (j : Nat) : Nat := j * 1000 / HZ

/-- The tunables of `struct sio_data` / `struct vr_data`: the four per-class
expiry durations (`fifo_expire[2][2]`, in jiffies), `fifo_batch`,
`writes_starved` and `rev_penalty`. -/
structure Conf where
  srExpire : Nat
  swExpire : Nat
  arExpire : Nat
  awExpire : Nat
  fifoBatch : Nat
  writesStarved : Nat
  revPenalty : Nat
deriving DecidableEq, Repr

/-- `fifo_expire[sync][data_dir]`. -/
def Conf.expire (c : Conf) (sy : SyncClass) (d : Dir) : Nat :=
  match sy, d with
  | .sync, .read => c.srExpire
  | .sync, .write => c.swExpire
  | .async, .read => c.arExpire
  | .async, .write => c.awExpire

/-- Default tunables from the source:
`sync_read_expire = HZ/2`, `sync_write_expire = 2*HZ`,
`async_read_expire = 4*HZ`, `async_write_expire = 16*HZ`,
`fifo_batch = 8`, `writes_starved = 2`.
Modelled from the spec: the source fragment references a default
`rev_penalty` constant that it never defines; any non-negative integer is
allowed, we take 1 (pure SSTF) as the placeholder default — no claim
depends on it. -/
def initConf : Conf :=
  { srExpire := HZ / 2, swExpire := 2 * HZ
    arExpire := 4 * HZ, awExpire := 16 * HZ
    fifoBatch := 8, writesStarved := 2, revPenalty := 1 }

/-- Recorded head direction of the last distance-based dispatch. -/
inductive LastDir where
  | nodir
  | fwd
  | bwd
deriving DecidableEq, Repr

/-- The scheduler instance: the Sector Index (`sort_list` rbtree, modelled as
the list of outstanding requests, queried by filtering), the four deadline
queues, the `batched`/`starved` counters, the head position, the tunables and
the fresh-id counter for `submit`. -/
structure Sched where
  sortList : List Request
  fifos : Fifos
  batched : Nat
  starved : Nat
  lastSector : Nat
  lastDir : LastDir
  conf : Conf
  nextId : Nat
deriving DecidableEq, Repr

/-- Errors of the external interface (§6/§7 of the spec). -/
inductive Err where
  | NotFound
  | InvalidRequest
deriving DecidableEq, Repr

/-- The fatal teardown fault (§6 `shutdown`). -/
inductive Fault where
  | ShutdownNotEmpty
deriving DecidableEq, Repr

/-- `vr_init_queue`: the private data is allocated with `__GFP_ZERO`
(counters and head state zeroed), the fifo heads are initialized empty, the
sector tree is `RB_ROOT` (empty), and the tunables get their defaults. -/
def initState : Sched :=
  { sortList := []
    fifos := ⟨[], [], [], []⟩
    batched := 0
    starved := 0
    lastSector := 0
    lastDir := .nodir
    conf := initConf
    nextId := 0 }

/-- Look up an outstanding request by id in the Sector Index. -/
def Sched.findReq (s : Sched) (i : Nat) : Option Request :=
  s.sortList.find? (fun r => r.id = i)

/-- Arguments of `submit` (§6). -/
structure SubmitArgs where
  sector : Nat
  len : Nat
  dir : Dir
  sync : SyncClass
deriving DecidableEq, Repr

/-- `vr_add_request` wrapped as the spec's `submit`: stamp the fifo time
(`rq_set_fifo_time(rq, jiffies + fifo_expire[sync][data_dir])`), append to
the class fifo (`list_add_tail`) and insert into the sector tree (the
"add rq to rbtree and fifo" comment of the source; the rbtree insertion call
itself is lost in the mangled fragment and follows the spec).
Modelled from the spec: the `InvalidRequest` rejection of zero-length
requests (§7) and fresh-id allocation (§6 returns a `RequestId`). -/
def Sched.submit (s : Sched) (now : Nat) (a : SubmitArgs) :
    Except Err Nat × Sched :=
  if a.len = 0 then (.error .InvalidRequest, s)
  else
    let r : Request :=
      { id := s.nextId, sector := a.sector, len := a.len
        dir := a.dir, sync := a.sync
        expire := now + s.conf.expire a.sync a.dir }
    (.ok s.nextId,
      { s with
        sortList := s.sortList ++ [r]
        fifos := s.fifos.update a.sync a.dir (fun q => q ++ [r])
        nextId := s.nextId + 1 })

/-- Remove a request (by id) from the Sector Index and from every fifo —
the two structures are always mutated together. -/
def Sched.removeId (s : Sched) (i : Nat) : Sched :=
  { s with
    sortList := s.sortList.filter (fun r => r.id ≠ i)
    fifos := s.fifos.app (fun q => q.filter (fun r => r.id ≠ i)) }

/-- `list_move(&rq->queuelist, &next->queuelist)`: insert `x` immediately
after the (first) entry whose id is `tid`. -/
def insertAfter (tid : Nat) (x : Request) : List Request → List Request
  | [] => []
  | y :: ys => if y.id = tid then y :: x :: ys else y :: insertAfter tid x ys

/-- `sio_merged_requests(q, rq, next)`, plus the surrounding elevator
bookkeeping the spec assigns to `merge` (§4.3): if `next` expires before
`rq`, `rq` adopts `next`'s expire time and moves into `next`'s fifo position
(`list_move` + `rq_set_fifo_time`); in all cases `next` is removed from its
fifo (`rq_fifo_clear`) and from the Sector Index and destroyed.
Modelled from the spec: the `NotFound` failure when either id is absent
(§4.3/§6); the source relies on the elevator framework to pass it live
requests only. -/
def Sched.mergeReqs (s : Sched) (p q : Nat) : Except Err Unit × Sched :=
  match s.findReq p, s.findReq q with
  | some rq, some next =>
    if next.expire < rq.expire then
      let rq' : Request := { rq with expire := next.expire }
      (.ok (),
        { s with
          sortList :=
            (s.sortList.filter (fun r => r.id ≠ next.id)).map
              (fun r => if r.id = rq.id then rq' else r)
          fifos :=
            (s.fifos.app
              (fun l => insertAfter next.id rq' (l.filter (fun r => r.id ≠ rq.id)))).app
              (fun l => l.filter (fun r => r.id ≠ next.id)) })
    else
      (.ok (),
        { s with
          sortList := s.sortList.filter (fun r => r.id ≠ next.id)
          fifos := s.fifos.app (fun l => l.filter (fun r => r.id ≠ next.id)) })
  | _, _ => (.error .NotFound, s)

/-- Modelled from the spec: `cancel(id)` (§5/§6) — synchronous removal from
both structures, `NotFound` if absent, no effect on the counters. -/
def Sched.cancel (s : Sched) (i : Nat) : Except Err Unit × Sched :=
  match s.findReq i with
  | some _ => (.ok (), s.removeId i)
  | none => (.error .NotFound, s)

/-- The minimal-cost element of a list (first of the ties). -/
def pickMin (cost : Request → Nat) : List Request → Option Request
  | [] => none
  | r :: rs =>
    match pickMin cost rs with
    | none => some r
    | some m => if cost r ≤ cost m then some r else some m

/-- The four fifo fronts (`peek_front` of each class). -/
def Sched.fronts (s : Sched) : List Request :=
  s.fifos.syncRead.head?.toList ++ s.fifos.syncWrite.head?.toList ++
    s.fifos.asyncRead.head?.toList ++ s.fifos.asyncWrite.head?.toList

/-- Tie-break rank of §4.4 step 2: read before write. -/
def dirRank : Dir → Nat
  | .read => 0
  | .write => 1

/-- Tie-break rank of §4.4 step 2: sync before async. -/
def syncRank : SyncClass → Nat
  | .sync => 0
  | .async => 1

/-- Cost encoding "globally earliest expiration, ties broken by
read-before-write, then sync-before-async" as a single `Nat`. -/
def forcedCost (r : Request) : Nat :=
  4 * r.expire + 2 * dirRank r.dir + syncRank r.sync

/-- Modelled from the spec (§4.4 step 2; `vr_dispatch_requests` is absent
from the source fragment): among the four fifo fronts whose deadline has
expired (`is_expired(entry, now)` = `now ≥ entry.expiration`), the one with
the globally earliest expiration, ties read-before-write then
sync-before-async. -/
def Sched.forcedCandidate (s : Sched) (now : Nat) : Option Request :=
  pickMin forcedCost ((s.fronts).filter (fun r => r.expire ≤ now))

/-- The forward candidate among `l`: the nearest request at
`sector ≥ last` (`successor`). -/
def succIn (last : Nat) (l : List Request) : Option Request :=
  pickMin (fun r => r.sector) (l.filter (fun r => last ≤ r.sector))

/-- The backward candidate among `l`: the nearest request at
`sector < last` (`predecessor`). -/
def predIn (last : Nat) (l : List Request) : Option Request :=
  pickMin (fun r => last - r.sector) (l.filter (fun r => r.sector < last))

/-- Modelled from the spec (§4.4 step 5): distance-based selection.
Forward cost = distance to the forward candidate (infinite if none);
backward cost = distance to the backward candidate scaled by `rev_penalty`;
`rev_penalty = 0` forbids reversal while a forward candidate exists (forces
SCAN, per the source's header comment); ties favor the forward candidate. -/
def distancePick (rev last : Nat) (l : List Request) : Option Request :=
  match succIn last l, predIn last l with
  | none, none => none
  | some f, none => some f
  | none, some b => some b
  | some f, some b =>
    if rev = 0 then some f
    else if f.sector - last ≤ (last - b.sector) * rev then some f else some b

/-- Direction of a dispatch relative to the previous head position
(`sector ≥ last` counts as forward, so ties continue the forward sweep). -/
def dirOf (last sector : Nat) : LastDir :=
  if last ≤ sector then .fwd else .bwd

/-- Is at least one write outstanding? -/
def Sched.writeExists (s : Sched) : Prop :=
  ∃ r ∈ s.sortList, r.dir = .write

instance (s : Sched) : Decidable s.writeExists := by
  unfold Sched.writeExists; infer_instance

/-- Modelled from the spec (§4.4; `vr_dispatch_requests` is absent from the
source fragment): `dispatch_next`, evaluated in strict priority order.
1. idle if the Sector Index is empty;
2. a deadline-forced candidate bypasses steps 3–5 (head position updated,
   sweep direction and counters untouched — §4.4's summary confines counter
   transitions to steps 4 and 5);
3. once the batched-run counter has reached `fifo_batch` the sweep is
   interrupted and control passes to step 4, otherwise the sweep continues
   with step 5 unconditionally;
4. if the starved counter has reached `writes_starved` and a write is
   outstanding, dispatch the write nearest to the last dispatched sector
   (distance rule restricted to writes) and reset `starved` to 0;
5. distance-based selection: increment `batched` when the pick continues the
   recorded direction, else reset it to 1 and flip the direction; a write
   resets `starved` to 0, a read increments it;
6. the chosen request is removed from both structures and returned, and
   `last_sector` is updated. -/
def Sched.dispatchNext (s : Sched) (now : Nat) : Option Request × Sched :=
  if s.sortList = [] then (none, s)
  else
    match s.forcedCandidate now with
    | some r => (some r, { s.removeId r.id with lastSector := r.sector })
    | none =>
      if s.conf.fifoBatch ≤ s.batched ∧ s.conf.writesStarved ≤ s.starved ∧
          s.writeExists then
        match distancePick s.conf.revPenalty s.lastSector
            (s.sortList.filter (fun r => r.dir = Dir.write)) with
        | some w =>
          (some w, { s.removeId w.id with lastSector := w.sector, starved := 0 })
        | none => (none, s)
      else
        match distancePick s.conf.revPenalty s.lastSector s.sortList with
        | some r =>
          let d := dirOf s.lastSector r.sector
          (some r,
            { s.removeId r.id with
              lastSector := r.sector
              lastDir := d
              batched := if s.lastDir = d then s.batched + 1 else 1
              starved := if r.dir = Dir.write then 0 else s.starved + 1 })
        | none => (none, s)

/-- The six/seven externally recognized configuration options (§6). -/
inductive Opt where
  | syncReadExpire
  | syncWriteExpire
  | asyncReadExpire
  | asyncWriteExpire
  | fifoBatchOpt
  | writesStarvedOpt
  | revPenaltyOpt
deriving DecidableEq, Repr

/-- The clamp of `STORE_FUNCTION`: `if (__data < 0) __data = 0; else if
(__data > INT_MAX) __data = INT_MAX;` — out-of-range input is silently
clamped, never rejected. -/
def clampStore (v : Int) : Nat :=
  if v < 0 then 0 else min v.toNat intMax

/-- `STORE_FUNCTION`: clamp, convert milliseconds to jiffies for the
time-valued fields (`__CONV`), store.  The source's attribute table exposes
`sync_expire`, `async_expire`, `fifo_batch` and `rev_penalty`; modelled from
the spec: the per-direction split of the expiry options and the
`writes_starved` option (§6 lists them; `struct sio_data` carries the
fields but the fragment lost their store functions). -/
def Conf.setOpt (c : Conf) (o : Opt) (v : Int) : Conf :=
  match o with
  | .syncReadExpire => { c with srExpire := msecsToJiffies (clampStore v) }
  | .syncWriteExpire => { c with swExpire := msecsToJiffies (clampStore v) }
  | .asyncReadExpire => { c with arExpire := msecsToJiffies (clampStore v) }
  | .asyncWriteExpire => { c with awExpire := msecsToJiffies (clampStore v) }
  | .fifoBatchOpt => { c with fifoBatch := clampStore v }
  | .writesStarvedOpt => { c with writesStarved := clampStore v }
  | .revPenaltyOpt => { c with revPenalty := clampStore v }

/-- `SHOW_FUNCTION`: convert jiffies back to milliseconds for the
time-valued fields, report the others raw. -/
def Conf.getOpt (c : Conf) (o : Opt) : Nat :=
  match o with
  | .syncReadExpire => jiffiesToMsecs c.srExpire
  | .syncWriteExpire => jiffiesToMsecs c.swExpire
  | .asyncReadExpire => jiffiesToMsecs c.arExpire
  | .asyncWriteExpire => jiffiesToMsecs c.awExpire
  | .fifoBatchOpt => c.fifoBatch
  | .writesStarvedOpt => c.writesStarved
  | .revPenaltyOpt => c.revPenalty

/-- `configure(option, value)`: runtime-mutable, independent of outstanding
requests. -/
def Sched.configure (s : Sched) (o : Opt) (v : Int) : Sched :=
  { s with conf := s.conf.setOpt o v }

/-- `snapshot_config()`. -/
def Sched.snapshotConfig (s : Sched) (o : Opt) : Nat :=
  s.conf.getOpt o

/-- `vr_exit_queue`: `BUG_ON(!RB_EMPTY_ROOT(&vd->sort_list))` — teardown
with a non-empty Sector Index is a fatal contract violation
(`ShutdownNotEmpty`); nothing is drained, dispatched or removed. -/
def Sched.shutdown (s : Sched) : Except Fault Unit × Sched :=
  if s.sortList = [] then (.ok (), s) else (.error .ShutdownNotEmpty, s)

/-- The states reachable from a fresh instance by any sequence of the
external operations. -/
inductive Reachable : Sched → Prop
  | init : Reachable initState
  | submit {s} (now : Nat) (a : SubmitArgs) :
      Reachable s → Reachable (s.submit now a).2
  | dispatch {s} (now : Nat) :
      Reachable s → Reachable (s.dispatchNext now).2
  | merge {s} (p q : Nat) :
      Reachable s → Reachable (s.mergeReqs p q).2
  | cancel {s} (i : Nat) :
      Reachable s → Reachable (s.cancel i).2
  | configure {s} (o : Opt) (v : Int) :
      Reachable s → Reachable (s.configure o v)

/-! ## Helper lemmas: `pickMin`, id counting, `insertAfter` -/

theorem pickMin_isSome (cost : Request → Nat) {l : List Request} (h : l ≠ []) :
    (pickMin cost l).isSome := by
  cases l with
  | nil => simp at h
  | cons r rs =>
    simp only [pickMin]
    cases pickMin cost rs with
    | none => rfl
    | some m => dsimp only; split <;> rfl

theorem pickMin_mem {cost : Request → Nat} {l : List Request} {r : Request}
    (h : pickMin cost l = some r) : r ∈ l := by
  induction l generalizing r with
  | nil => simp [pickMin] at h
  | cons x xs ih =>
    simp only [pickMin] at h
    cases hx : pickMin cost xs with
    | none =>
      rw [hx] at h
      simp only [Option.some.injEq] at h
      simp [h]
    | some m =>
      rw [hx] at h
      dsimp only at h
      split at h <;> simp only [Option.some.injEq] at h
      · simp [h]
      · exact h ▸ List.mem_cons_of_mem _ (ih hx)

theorem pickMin_le {cost : Request → Nat} {l : List Request} {r : Request}
    (h : pickMin cost l = some r) : ∀ x ∈ l, cost r ≤ cost x := by
  induction l generalizing r with
  | nil => simp [pickMin] at h
  | cons y ys ih =>
    simp only [pickMin] at h
    intro x hxm
    cases hx : pickMin cost ys with
    | none =>
      rw [hx] at h
      simp only [Option.some.injEq] at h
      subst h
      rcases List.mem_cons.mp hxm with h1 | h1
      · simp [h1]
      · have : ys = [] := by
          cases ys with
          | nil => rfl
          | cons a as =>
            exfalso
            have := @pickMin_isSome cost (a :: as) (by simp)
            rw [hx] at this; simp at this
        simp [this] at h1
    | some m =>
      rw [hx] at h
      dsimp only at h
      have hmle := ih hx
      rcases List.mem_cons.mp hxm with h1 | h1
      · subst h1
        split at h <;> simp only [Option.some.injEq] at h <;> subst h
        · exact le_refl _
        · omega
      · have hm := hmle x h1
        split at h <;> simp only [Option.some.injEq] at h <;> subst h
        · omega
        · exact hm

/-- Occurrences of an id in a request list. -/
def idCount (i : Nat) (l : List Request) : Nat :=
  l.countP (fun r => r.id = i)

theorem idCount_nil (i : Nat) : idCount i [] = 0 := rfl

theorem idCount_cons (i : Nat) (y : Request) (l : List Request) :
    idCount i (y :: l) = idCount i l + (if y.id = i then 1 else 0) := by
  unfold idCount
  rw [List.countP_cons]
  simp

theorem idCount_append (i : Nat) (l₁ l₂ : List Request) :
    idCount i (l₁ ++ l₂) = idCount i l₁ + idCount i l₂ :=
  List.countP_append ..

theorem idCount_pos_iff (i : Nat) (l : List Request) :
    0 < idCount i l ↔ ∃ r ∈ l, r.id = i := by
  unfold idCount
  rw [List.countP_pos_iff]
  simp

theorem idCount_eq_zero_iff (i : Nat) (l : List Request) :
    idCount i l = 0 ↔ ∀ r ∈ l, r.id ≠ i := by
  unfold idCount
  rw [List.countP_eq_zero]
  simp

theorem idCount_filter_ne {i j : Nat} (hne : j ≠ i) (l : List Request) :
    idCount j (l.filter (fun r => r.id ≠ i)) = idCount j l := by
  unfold idCount
  rw [List.countP_filter]
  apply List.countP_congr
  intro r _
  simp only [Bool.and_eq_true, decide_eq_true_eq]
  constructor
  · intro h; simp at h; exact by simp [h.1]
  · intro h; simp at h; subst h; simp [hne]

theorem idCount_filter_self (i : Nat) (l : List Request) :
    idCount i (l.filter (fun r => r.id ≠ i)) = 0 := by
  rw [idCount_eq_zero_iff]
  intro r hr
  have := List.of_mem_filter hr
  simpa using this

theorem idCount_filter_le (p : Request → Bool) (i : Nat) (l : List Request) :
    idCount i (l.filter p) ≤ idCount i l := by
  unfold idCount
  rw [List.countP_filter]
  exact List.countP_mono_left (by intro r _ h; simp at h; simp [h.1])

theorem idCount_map_preserve {f : Request → Request}
    (hf : ∀ r, (f r).id = r.id) (i : Nat) (l : List Request) :
    idCount i (l.map f) = idCount i l := by
  unfold idCount
  rw [List.countP_map]
  apply List.countP_congr
  intro r _
  simp [Function.comp, hf]

theorem insertAfter_of_absent {tid : Nat} {l : List Request}
    (h : ∀ y ∈ l, y.id ≠ tid) (x : Request) : insertAfter tid x l = l := by
  induction l with
  | nil => rfl
  | cons y ys ih =>
    have hy : y.id ≠ tid := h y (by simp)
    simp only [insertAfter, if_neg hy]
    rw [ih (fun z hz => h z (List.mem_cons_of_mem _ hz))]

theorem idCount_insertAfter (j tid : Nat) (x : Request) (l : List Request) :
    idCount j (insertAfter tid x l) =
      idCount j l +
        if 0 < idCount tid l then (if x.id = j then 1 else 0) else 0 := by
  induction l with
  | nil => simp [insertAfter, idCount]
  | cons y ys ih =>
    by_cases hy : y.id = tid
    · have hpos : 0 < idCount tid (y :: ys) := by
        rw [idCount_pos_iff]; exact ⟨y, by simp, hy⟩
      simp only [insertAfter, if_pos hy]
      rw [idCount_cons, idCount_cons, idCount_cons, if_pos hpos]
      split_ifs <;> omega
    · have hcnt : idCount tid (y :: ys) = idCount tid ys := by
        rw [idCount_cons]; simp [hy]
      simp only [insertAfter, if_neg hy]
      rw [idCount_cons, ih, idCount_cons, hcnt]
      split_ifs <;> omega

theorem mem_insertAfter {tid : Nat} {x r : Request} {l : List Request}
    (h : r ∈ insertAfter tid x l) : r = x ∨ r ∈ l := by
  induction l with
  | nil => simp [insertAfter] at h
  | cons y ys ih =>
    simp only [insertAfter] at h
    split at h
    · rcases List.mem_cons.mp h with h1 | h1
      · right; simp [h1]
      · rcases List.mem_cons.mp h1 with h2 | h2
        · left; exact h2
        · right; exact List.mem_cons_of_mem _ h2
    · rcases List.mem_cons.mp h with h1 | h1
      · right; simp [h1]
      · rcases ih h1 with h2 | h2
        · left; exact h2
        · right; exact List.mem_cons_of_mem _ h2

/-! ## Structure lemmas for the scheduler operations -/

theorem Fifos.all_app_filter (f : Fifos) (p : Request → Bool) :
    (f.app (fun q => q.filter p)).all = f.all.filter p := by
  simp [Fifos.app, Fifos.all, List.filter_append]

theorem Fifos.mem_all_update_append (f : Fifos) (c : SyncClass) (d : Dir)
    (r x : Request) :
    x ∈ (f.update c d (fun q => q ++ [r])).all ↔ x ∈ f.all ∨ x = r := by
  cases c <;> cases d <;>
    simp [Fifos.update, Fifos.all] <;> tauto

theorem idCount_singleton (i : Nat) (r : Request) :
    idCount i [r] = if r.id = i then 1 else 0 := by
  rw [idCount_cons, idCount_nil]; omega

theorem Fifos.idCount_update_append (f : Fifos) (c : SyncClass) (d : Dir)
    (r : Request) (i : Nat) :
    idCount i ((f.update c d (fun q => q ++ [r])).all) =
      idCount i f.all + (if r.id = i then 1 else 0) := by
  cases c <;> cases d <;>
    simp only [Fifos.update, Fifos.all, idCount_append, idCount_singleton] <;>
    split_ifs <;> omega

theorem findReq_some {s : Sched} {i : Nat} {r : Request}
    (h : s.findReq i = some r) : r ∈ s.sortList ∧ r.id = i := by
  unfold Sched.findReq at h
  exact ⟨List.mem_of_find?_eq_some h, by simpa using List.find?_some h⟩

theorem findReq_none {s : Sched} {i : Nat} (h : s.findReq i = none) :
    ∀ r ∈ s.sortList, r.id ≠ i := by
  unfold Sched.findReq at h
  intro r hr
  simpa using List.find?_eq_none.mp h r hr

theorem removeId_sortList (s : Sched) (i : Nat) :
    (s.removeId i).sortList = s.sortList.filter (fun r => r.id ≠ i) := rfl

theorem removeId_all (s : Sched) (i : Nat) :
    (s.removeId i).fifos.all = s.fifos.all.filter (fun r => r.id ≠ i) :=
  Fifos.all_app_filter ..

/-! ## The membership invariant (well-formedness) -/

/-- Occurrences of id `i` in the Sector Index. -/
def idxCount (s : Sched) (i : Nat) : Nat := idCount i s.sortList

/-- Occurrences of id `i` across the four deadline queues. -/
def fifoCount (s : Sched) (i : Nat) : Nat := idCount i s.fifos.all

/-- Well-formedness of a scheduler state: ids occur at most once in the
Sector Index, the index and the fifo queues hold the same requests (every id
the same number of times, and every fifo entry is literally an entry of the
index), and every outstanding id is below the fresh-id counter. -/
structure Wf (s : Sched) : Prop where
  idx_le : ∀ i, idxCount s i ≤ 1
  idx_fifo : ∀ i, idxCount s i = fifoCount s i
  sub : ∀ r ∈ s.fifos.all, r ∈ s.sortList
  fresh : ∀ r ∈ s.sortList, r.id < s.nextId

theorem wf_initState : Wf initState := by
  constructor <;> intro i <;> simp [initState, idxCount, fifoCount,
    Fifos.all, idCount_nil] at *

/-- `Wf` only looks at the index, the fifos and the id counter. -/
theorem wf_of_fields {t u : Sched} (h : Wf t) (hs : u.sortList = t.sortList)
    (hf : u.fifos = t.fifos) (hn : u.nextId = t.nextId) : Wf u := by
  constructor
  · intro i; unfold idxCount; rw [hs]; exact h.idx_le i
  · intro i; unfold idxCount fifoCount; rw [hs, hf]; exact h.idx_fifo i
  · intro r hr; rw [hf] at hr; rw [hs]; exact h.sub r hr
  · intro r hr; rw [hs] at hr; rw [hn]; exact h.fresh r hr

theorem wf_removeId {s : Sched} (hw : Wf s) (i : Nat) : Wf (s.removeId i) := by
  constructor
  · intro j
    unfold idxCount
    rw [removeId_sortList]
    by_cases hj : j = i
    · subst hj; rw [idCount_filter_self]; omega
    · rw [idCount_filter_ne hj]; exact hw.idx_le j
  · intro j
    unfold idxCount fifoCount
    rw [removeId_sortList, removeId_all]
    by_cases hj : j = i
    · subst hj; rw [idCount_filter_self, idCount_filter_self]
    · rw [idCount_filter_ne hj, idCount_filter_ne hj]; exact hw.idx_fifo j
  · intro r hr
    rw [removeId_all] at hr
    rw [removeId_sortList]
    rw [List.mem_filter] at hr ⊢
    exact ⟨hw.sub r hr.1, hr.2⟩
  · intro r hr
    rw [removeId_sortList] at hr
    exact hw.fresh r (List.mem_of_mem_filter hr)

theorem wf_submit {s : Sched} (hw : Wf s) (now : Nat) (a : SubmitArgs) :
    Wf (s.submit now a).2 := by
  unfold Sched.submit
  split
  · exact hw
  · set r : Request :=
      { id := s.nextId, sector := a.sector, len := a.len
        dir := a.dir, sync := a.sync
        expire := now + s.conf.expire a.sync a.dir } with hr
    have hfresh : idCount s.nextId s.sortList = 0 := by
      rw [idCount_eq_zero_iff]
      intro x hx
      exact Nat.ne_of_lt (hw.fresh x hx)
    constructor
    · intro j
      unfold idxCount
      show idCount j (s.sortList ++ [r]) ≤ 1
      rw [idCount_append, idCount_singleton]
      by_cases hj : j = s.nextId
      · subst hj
        unfold idxCount at *
        simp only [hr]
        rw [hfresh]
        simp
      · have : ¬ r.id = j := by simp [hr]; omega
        rw [if_neg this]
        have := hw.idx_le j
        unfold idxCount at this
        omega
    · intro j
      unfold idxCount fifoCount
      show idCount j (s.sortList ++ [r]) =
        idCount j ((s.fifos.update a.sync a.dir (fun q => q ++ [r])).all)
      rw [idCount_append, idCount_singleton, Fifos.idCount_update_append]
      have := hw.idx_fifo j
      unfold idxCount fifoCount at this
      omega
    · intro x hx
      have hx' : x ∈ s.fifos.all ∨ x = r :=
        (Fifos.mem_all_update_append ..).mp hx
      show x ∈ s.sortList ++ [r]
      rcases hx' with h1 | h1
      · exact List.mem_append_left _ (hw.sub x h1)
      · subst h1; exact List.mem_append_right _ (by simp)
    · intro x hx
      show x.id < s.nextId + 1
      rcases List.mem_append.mp hx with h1 | h1
      · exact Nat.lt_succ_of_lt (hw.fresh x h1)
      · simp at h1; subst h1; simp [hr]

theorem idCount_mergeMoveQueue (n a j : Nat) (hna : n ≠ a) (rq' : Request)
    (hid : rq'.id = a) (q : List Request) :
    idCount j ((insertAfter n rq' (q.filter (fun r => r.id ≠ a))).filter
        (fun r => r.id ≠ n)) =
      if j = n then 0
      else idCount j (q.filter (fun r => r.id ≠ a)) +
        (if 0 < idCount n q then (if a = j then 1 else 0) else 0) := by
  by_cases hj : j = n
  · subst hj; rw [if_pos rfl, idCount_filter_self]
  · rw [if_neg hj, idCount_filter_ne hj, idCount_insertAfter,
      idCount_filter_ne hna, hid]

theorem Fifos.app_app (f : Fifos) (g₁ g₂ : List Request → List Request) :
    (f.app g₁).app g₂ = f.app (fun q => g₂ (g₁ q)) := rfl

theorem idCount_mergeAll (f : Fifos) (n a : Nat) (hna : n ≠ a) (rq' : Request)
    (hid : rq'.id = a) (hone : idCount n f.all = 1) (j : Nat) :
    idCount j (((f.app (fun l => insertAfter n rq' (l.filter (fun r => r.id ≠ a)))).app
        (fun l => l.filter (fun r => r.id ≠ n))).all) =
      if j = n then 0 else if j = a then 1 else idCount j f.all := by
  have hq := idCount_mergeMoveQueue n a j hna rq' hid
  have hsum : idCount n f.syncRead + idCount n f.syncWrite + idCount n f.asyncRead +
      idCount n f.asyncWrite = 1 := by
    simp only [Fifos.all, idCount_append] at hone
    omega
  rw [Fifos.app_app]
  simp only [Fifos.app, Fifos.all, idCount_append, hq]
  by_cases hjn : j = n
  · simp [hjn]
  · simp only [if_neg hjn]
    by_cases hja : j = a
    · subst hja
      simp only [if_pos rfl, idCount_filter_self]
      split_ifs <;> omega
    · simp only [if_neg hja, idCount_filter_ne hja, Fifos.all, idCount_append]
      split_ifs <;> omega

theorem mem_mergeMoveQueue {n a : Nat} {rq' x : Request} {q : List Request}
    (h : x ∈ (insertAfter n rq' (q.filter (fun r => r.id ≠ a))).filter
        (fun r => r.id ≠ n)) :
    x = rq' ∨ (x ∈ q ∧ x.id ≠ a ∧ x.id ≠ n) := by
  have h1 := List.mem_of_mem_filter h
  have hxn : x.id ≠ n := by simpa using List.of_mem_filter h
  rcases mem_insertAfter h1 with h2 | h2
  · left; exact h2
  · right
    refine ⟨List.mem_of_mem_filter h2, ?_, hxn⟩
    simpa using List.of_mem_filter h2

theorem Fifos.mem_all_app {f : Fifos} {g : List Request → List Request}
    {x : Request} (h : x ∈ (f.app g).all) :
    x ∈ g f.syncRead ∨ x ∈ g f.syncWrite ∨ x ∈ g f.asyncRead ∨
      x ∈ g f.asyncWrite := by
  simp only [Fifos.app, Fifos.all, List.mem_append] at h
  tauto

theorem wf_merge {s : Sched} (hw : Wf s) (p q : Nat) : Wf (s.mergeReqs p q).2 := by
  unfold Sched.mergeReqs
  cases hp : s.findReq p with
  | none => exact hw
  | some rq =>
    cases hq : s.findReq q with
    | none => exact hw
    | some next =>
      dsimp only
      split
      · rename_i hlt
        obtain ⟨hrqmem, hrqid⟩ := findReq_some hp
        obtain ⟨hnmem, hnid⟩ := findReq_some hq
        have hne : next.id ≠ rq.id := by
          intro he
          have hpq : p = q := by rw [← hrqid, ← hnid, he]
          rw [hpq, hq] at hp
          have hrn : next = rq := by injection hp
          rw [hrn] at hlt
          exact absurd hlt (lt_irrefl _)
        set rq' : Request := { rq with expire := next.expire } with hrq'
        have hid : rq'.id = rq.id := rfl
        have hpres : ∀ r : Request,
            ((fun r => if r.id = rq.id then rq' else r) r).id = r.id := by
          intro r
          by_cases hr : r.id = rq.id
          · simp [hr, hid]
          · simp [hr]
        have hidx1 : idxCount s next.id = 1 := by
          have hge : 0 < idxCount s next.id := by
            unfold idxCount
            rw [idCount_pos_iff]
            exact ⟨next, hnmem, rfl⟩
          have := hw.idx_le next.id
          omega
        have hone : idCount next.id s.fifos.all = 1 := by
          have h2 := hw.idx_fifo next.id
          unfold idxCount fifoCount at h2
          unfold idxCount at hidx1
          omega
        have hidxa : idxCount s rq.id = 1 := by
          have hge : 0 < idxCount s rq.id := by
            unfold idxCount
            rw [idCount_pos_iff]
            exact ⟨rq, hrqmem, rfl⟩
          have := hw.idx_le rq.id
          omega
        have hSL : ∀ j, idCount j ((s.sortList.filter (fun r => r.id ≠ next.id)).map
            (fun r => if r.id = rq.id then rq' else r)) =
            if j = next.id then 0 else idCount j s.sortList := by
          intro j
          rw [idCount_map_preserve hpres]
          by_cases hj : j = next.id
          · subst hj; rw [if_pos rfl, idCount_filter_self]
          · rw [if_neg hj, idCount_filter_ne hj]
        have hFF := idCount_mergeAll s.fifos next.id rq.id hne rq' hid hone
        constructor
        · intro j
          unfold idxCount
          show idCount j ((s.sortList.filter (fun r => r.id ≠ next.id)).map
            (fun r => if r.id = rq.id then rq' else r)) ≤ 1
          rw [hSL]
          have := hw.idx_le j
          unfold idxCount at this
          split_ifs <;> omega
        · intro j
          unfold idxCount fifoCount
          show idCount j ((s.sortList.filter (fun r => r.id ≠ next.id)).map
              (fun r => if r.id = rq.id then rq' else r)) =
            idCount j (((s.fifos.app (fun l => insertAfter next.id rq'
              (l.filter (fun r => r.id ≠ rq.id)))).app
              (fun l => l.filter (fun r => r.id ≠ next.id))).all)
          rw [hSL, hFF]
          have h1 := hw.idx_fifo j
          unfold idxCount fifoCount at h1
          by_cases hjn : j = next.id
          · simp [hjn]
          · rw [if_neg hjn, if_neg hjn]
            by_cases hja : j = rq.id
            · subst hja
              rw [if_pos rfl]
              exact hidxa
            · rw [if_neg hja, h1]
        · intro x hx
          show x ∈ (s.sortList.filter (fun r => r.id ≠ next.id)).map
            (fun r => if r.id = rq.id then rq' else r)
          rw [Fifos.app_app] at hx
          have hx4 := Fifos.mem_all_app hx
          have hcase : x = rq' ∨ (x ∈ s.fifos.all ∧ x.id ≠ rq.id ∧ x.id ≠ next.id) := by
            rcases hx4 with h1 | h1 | h1 | h1 <;>
              rcases mem_mergeMoveQueue h1 with h2 | h2 <;>
              simp only [Fifos.all, List.mem_append] <;> tauto
          rcases hcase with h1 | ⟨h1, h2, h3⟩
          · subst h1
            apply List.mem_map.mpr
            refine ⟨rq, ?_, by simp⟩
            rw [List.mem_filter]
            refine ⟨hrqmem, by simpa using (Ne.symm hne)⟩
          · apply List.mem_map.mpr
            refine ⟨x, ?_, by simp [h2]⟩
            rw [List.mem_filter]
            exact ⟨hw.sub x h1, by simpa using h3⟩
        · intro x hx
          show x.id < s.nextId
          rcases List.mem_map.mp hx with ⟨y, hy, hxy⟩
          have hy' : y ∈ s.sortList := List.mem_of_mem_filter hy
          by_cases hyr : y.id = rq.id
          · rw [← hxy, if_pos hyr]
            exact hw.fresh rq hrqmem
          · rw [← hxy, if_neg hyr]
            exact hw.fresh y hy'
      · exact wf_of_fields (wf_removeId hw next.id) rfl rfl rfl

theorem wf_cancel {s : Sched} (hw : Wf s) (i : Nat) : Wf (s.cancel i).2 := by
  unfold Sched.cancel
  cases s.findReq i with
  | none => exact hw
  | some r => exact wf_removeId hw i

theorem wf_configure {s : Sched} (hw : Wf s) (o : Opt) (v : Int) :
    Wf (s.configure o v) :=
  wf_of_fields hw rfl rfl rfl

theorem wf_dispatch {s : Sched} (hw : Wf s) (now : Nat) :
    Wf (s.dispatchNext now).2 := by
  unfold Sched.dispatchNext
  split
  · exact hw
  · cases s.forcedCandidate now with
    | some r => exact wf_of_fields (wf_removeId hw r.id) rfl rfl rfl
    | none =>
      dsimp only
      split
      · cases distancePick s.conf.revPenalty s.lastSector
            (s.sortList.filter (fun r => r.dir = Dir.write)) with
        | some w => exact wf_of_fields (wf_removeId hw w.id) rfl rfl rfl
        | none => exact hw
      · cases distancePick s.conf.revPenalty s.lastSector s.sortList with
        | some r => exact wf_of_fields (wf_removeId hw r.id) rfl rfl rfl
        | none => exact hw

theorem reachable_wf {s : Sched} (h : Reachable s) : Wf s := by
  induction h with
  | init => exact wf_initState
  | submit now a _ ih => exact wf_submit ih now a
  | dispatch now _ ih => exact wf_dispatch ih now
  | merge p q _ ih => exact wf_merge ih p q
  | cancel i _ ih => exact wf_cancel ih i
  | configure o v _ ih => exact wf_configure ih o v

/-! ## C2: the membership invariant -/

/-- The number of the four deadline queues in which id `i` occurs. -/
def queuesWith (s : Sched) (i : Nat) : Nat :=
  (if ∃ r ∈ s.fifos.syncRead, r.id = i then 1 else 0) +
  (if ∃ r ∈ s.fifos.syncWrite, r.id = i then 1 else 0) +
  (if ∃ r ∈ s.fifos.asyncRead, r.id = i then 1 else 0) +
  (if ∃ r ∈ s.fifos.asyncWrite, r.id = i then 1 else 0)

/-- C2: at every reachable state — after any sequence of submit,
dispatch_next, merge and cancel operations — a request id is present in the
Sector Index if and only if it is present in exactly one of the four
Deadline Queues. -/
theorem membership_invariant {s : Sched} (h : Reachable s) (i : Nat) :
    (∃ r ∈ s.sortList, r.id = i) ↔ queuesWith s i = 1 := by
  have hw := reachable_wf h
  have hif := hw.idx_fifo i
  have hle := hw.idx_le i
  unfold idxCount fifoCount at hif
  unfold idxCount at hle
  have hsplit : idCount i s.fifos.all =
      idCount i s.fifos.syncRead + idCount i s.fifos.syncWrite +
        idCount i s.fifos.asyncRead + idCount i s.fifos.asyncWrite := by
    simp only [Fifos.all, idCount_append]
  have e0 : (∃ r ∈ s.sortList, r.id = i) ↔ 0 < idCount i s.sortList :=
    (idCount_pos_iff ..).symm
  have e1 : (∃ r ∈ s.fifos.syncRead, r.id = i) ↔
      0 < idCount i s.fifos.syncRead := (idCount_pos_iff ..).symm
  have e2 : (∃ r ∈ s.fifos.syncWrite, r.id = i) ↔
      0 < idCount i s.fifos.syncWrite := (idCount_pos_iff ..).symm
  have e3 : (∃ r ∈ s.fifos.asyncRead, r.id = i) ↔
      0 < idCount i s.fifos.asyncRead := (idCount_pos_iff ..).symm
  have e4 : (∃ r ∈ s.fifos.asyncWrite, r.id = i) ↔
      0 < idCount i s.fifos.asyncWrite := (idCount_pos_iff ..).symm
  unfold queuesWith
  rw [e0]
  simp only [e1, e2, e3, e4]
  split_ifs <;> omega

/-- C2 witness: a concrete reachable state with one outstanding request. -/
theorem membership_invariant_witness :
    (∃ r ∈ ((initState.submit 0 ⟨100, 1, .read, .sync⟩).2).sortList, r.id = 0) ↔
      queuesWith (initState.submit 0 ⟨100, 1, .read, .sync⟩).2 0 = 1 :=
  membership_invariant (Reachable.submit 0 _ Reachable.init) 0

/-! ## C10: the freshly constructed instance -/

/-- C10: a newly constructed scheduler starts with an empty Sector Index,
all four Deadline Queues empty, and the batched-run and starved counters at
0, so the membership invariant holds initially. -/
theorem init_state_zeroed :
    initState.sortList = [] ∧
    initState.fifos.syncRead = [] ∧ initState.fifos.syncWrite = [] ∧
    initState.fifos.asyncRead = [] ∧ initState.fifos.asyncWrite = [] ∧
    initState.batched = 0 ∧ initState.starved = 0 ∧
    ∀ i, ((∃ r ∈ initState.sortList, r.id = i) ↔ queuesWith initState i = 1) := by
  refine ⟨rfl, rfl, rfl, rfl, rfl, rfl, rfl, ?_⟩
  intro i
  exact membership_invariant Reachable.init i

/-! ## C9: shutdown -/

/-- C9: `shutdown` succeeds exactly when the Sector Index is empty;
otherwise it signals `ShutdownNotEmpty` and no outstanding request is
drained, dispatched or removed (the state is untouched). -/
theorem shutdown_iff_empty (s : Sched) :
    ((s.shutdown).1 = .ok () ↔ s.sortList = []) ∧ (s.shutdown).2 = s := by
  unfold Sched.shutdown
  split
  · rename_i h
    exact ⟨by simp [h], rfl⟩
  · rename_i h
    refine ⟨⟨fun hc => by simp at hc, fun hc => absurd hc h⟩, rfl⟩

/-! ## C8: configuration clamping -/

/-- Under `HZ = 1000` the boundary conversions are exact. -/
theorem jiffies_msecs_roundtrip (m : Nat) :
    jiffiesToMsecs (msecsToJiffies m) = m := by
  unfold jiffiesToMsecs msecsToJiffies HZ
  omega

/-- C8: every one of the listed configuration options is accepted by
`configure`, which stores the input clamped into `[0, INT_MAX]` (never an
error — `configure` is total), and `snapshot_config` then reports exactly
the stored, clamped value. -/
theorem configure_clamps (s : Sched) (o : Opt) (v : Int) :
    (s.configure o v).snapshotConfig o = clampStore v ∧
      clampStore v ≤ intMax := by
  constructor
  · cases o <;>
      simp [Sched.configure, Sched.snapshotConfig, Conf.setOpt, Conf.getOpt,
        jiffies_msecs_roundtrip]
  · unfold clampStore
    split
    · omega
    · exact min_le_right ..

/-! ## C7: merge on an absent id -/

/-- C7: if either id passed to `merge` does not refer to a currently
outstanding request, the call fails with `NotFound` and the whole scheduler
state — Sector Index, the four Deadline Queues and the Scheduler State —
is unchanged. -/
theorem merge_not_found {s : Sched} {p q : Nat}
    (h : (∀ r ∈ s.sortList, r.id ≠ p) ∨ (∀ r ∈ s.sortList, r.id ≠ q)) :
    s.mergeReqs p q = (.error .NotFound, s) := by
  unfold Sched.mergeReqs
  rcases h with h | h
  · have hp : s.findReq p = none := by
      unfold Sched.findReq
      exact List.find?_eq_none.mpr (by intro a ha; simpa using h a ha)
    rw [hp]
  · have hq : s.findReq q = none := by
      unfold Sched.findReq
      exact List.find?_eq_none.mpr (by intro a ha; simpa using h a ha)
    rw [hq]
    cases s.findReq p <;> rfl

/-- C7 witness: merging two absent ids on a fresh instance. -/
theorem merge_not_found_witness :
    initState.mergeReqs 0 1 = (.error .NotFound, initState) :=
  merge_not_found (Or.inl (by intro r hr; simp [initState] at hr))

/-! ## C3: merge deadline transfer -/

theorem filter_ne_of_absent {n : Nat} {l : List Request}
    (h : ∀ y ∈ l, y.id ≠ n) : l.filter (fun r => r.id ≠ n) = l :=
  List.filter_eq_self.mpr (by intro a ha; simpa using h a ha)

theorem map_replace_of_absent {n : Nat} {x : Request} {l : List Request}
    (h : ∀ y ∈ l, y.id ≠ n) :
    l.map (fun r => if r.id = n then x else r) = l := by
  induction l with
  | nil => rfl
  | cons y ys ih =>
    have hy : y.id ≠ n := h y (by simp)
    simp only [List.map_cons, if_neg hy]
    rw [ih (fun z hz => h z (List.mem_cons_of_mem _ hz))]

/-- With at most one occurrence of the secondary's id in a queue, the
`list_move`-then-`rq_fifo_clear` sequence of the merge handler nets out to
"replace the secondary by the re-stamped primary in place, with the
primary's old entry removed". -/
theorem mergeMoveQueue_eq_replace {n a : Nat} (hna : n ≠ a) {rq' : Request}
    (hid : rq'.id = a) {q : List Request} (hcnt : idCount n q ≤ 1) :
    (insertAfter n rq' (q.filter (fun r => r.id ≠ a))).filter
        (fun r => r.id ≠ n) =
      (q.filter (fun r => r.id ≠ a)).map
        (fun r => if r.id = n then rq' else r) := by
  induction q with
  | nil => rfl
  | cons y ys ih =>
    by_cases hya : y.id = a
    · rw [List.filter_cons_of_neg (by simp [hya])]
      apply ih
      rw [idCount_cons] at hcnt
      omega
    · rw [List.filter_cons_of_pos (by simp [hya])]
      by_cases hyn : y.id = n
      · have hzero : idCount n ys = 0 := by
          rw [idCount_cons, if_pos hyn] at hcnt
          omega
        have habs : ∀ z ∈ ys, z.id ≠ n := (idCount_eq_zero_iff ..).mp hzero
        have habsf : ∀ z ∈ ys.filter (fun r => r.id ≠ a), z.id ≠ n :=
          fun z hz => habs z (List.mem_of_mem_filter hz)
        have e1 : insertAfter n rq' (y :: ys.filter (fun r => r.id ≠ a)) =
            y :: rq' :: ys.filter (fun r => r.id ≠ a) := by
          simp only [insertAfter, if_pos hyn]
        rw [e1, List.filter_cons_of_neg (by simp [hyn]),
          List.filter_cons_of_pos (by simp [hid]; exact Ne.symm hna),
          filter_ne_of_absent habsf, List.map_cons, if_pos hyn,
          map_replace_of_absent habsf]
      · have e1 : insertAfter n rq' (y :: ys.filter (fun r => r.id ≠ a)) =
            y :: insertAfter n rq' (ys.filter (fun r => r.id ≠ a)) := by
          simp only [insertAfter, if_neg hyn]
        rw [e1, List.filter_cons_of_pos (by simp [hyn]), List.map_cons,
          if_neg hyn]
        rw [idCount_cons, if_neg hyn] at hcnt
        rw [ih (by omega)]

theorem Fifos.get_app (f : Fifos) (g : List Request → List Request)
    (c : SyncClass) (d : Dir) : (f.app g).get c d = g (f.get c d) := by
  cases c <;> cases d <;> rfl

theorem idCount_get_le_all (f : Fifos) (c : SyncClass) (d : Dir) (n : Nat) :
    idCount n (f.get c d) ≤ idCount n f.all := by
  cases c <;> cases d <;>
    simp only [Fifos.get, Fifos.all, idCount_append] <;> omega

theorem find?_id_filter_ne {p n : Nat} (hpn : p ≠ n) (l : List Request) :
    (l.filter (fun r => r.id ≠ n)).find? (fun r => r.id = p) =
      l.find? (fun r => r.id = p) := by
  induction l with
  | nil => rfl
  | cons y ys ih =>
    by_cases hyn : y.id = n
    · rw [List.filter_cons_of_neg (by simp [hyn]), ih,
        List.find?_cons_of_neg _ (by simp only [decide_eq_true_eq]; omega)]
    · rw [List.filter_cons_of_pos (by simp [hyn])]
      by_cases hyp : y.id = p
      · rw [List.find?_cons_of_pos _ (by simpa using hyp),
          List.find?_cons_of_pos _ (by simpa using hyp)]
      · rw [List.find?_cons_of_neg _ (by simpa using hyp),
          List.find?_cons_of_neg _ (by simpa using hyp), ih]

theorem find?_id_map_preserve {f : Request → Request}
    (hf : ∀ r, (f r).id = r.id) (p : Nat) (l : List Request) :
    (l.map f).find? (fun r => r.id = p) =
      (l.find? (fun r => r.id = p)).map f := by
  induction l with
  | nil => rfl
  | cons y ys ih =>
    simp only [List.map_cons]
    by_cases hyp : y.id = p
    · rw [List.find?_cons_of_pos _ (by simp [hf, hyp]),
        List.find?_cons_of_pos _ (by simpa using hyp)]
      rfl
    · rw [List.find?_cons_of_neg _ (by simp [hf, hyp]),
        List.find?_cons_of_neg _ (by simpa using hyp), ih]

/-- C3: merging an outstanding secondary `next` into an outstanding primary
`rq`: if `next`'s expiration strictly precedes `rq`'s, afterwards the
primary carries `next`'s original expiration and stands exactly where
`next` stood in its Deadline Queue (every queue equals the old queue with
the primary's old entry removed and `next` replaced in place by the
re-stamped primary); otherwise the primary's record and every queue are
untouched apart from the removal of `next`.  In both cases `next` is
afterwards absent from the Sector Index and from all Deadline Queues. -/
theorem merge_deadline_transfer {s : Sched} (h : Reachable s) {p q : Nat}
    {rq next : Request} (hp : s.findReq p = some rq)
    (hq : s.findReq q = some next) (hne : p ≠ q) :
    (s.mergeReqs p q).1 = .ok () ∧
    (∀ r ∈ (s.mergeReqs p q).2.sortList, r.id ≠ next.id) ∧
    (∀ r ∈ (s.mergeReqs p q).2.fifos.all, r.id ≠ next.id) ∧
    (next.expire < rq.expire →
      ((s.mergeReqs p q).2.findReq p = some { rq with expire := next.expire } ∧
       ∀ c d, (s.mergeReqs p q).2.fifos.get c d =
         ((s.fifos.get c d).filter (fun r => r.id ≠ rq.id)).map
           (fun r => if r.id = next.id then { rq with expire := next.expire }
             else r))) ∧
    (¬ next.expire < rq.expire →
      ((s.mergeReqs p q).2.findReq p = some rq ∧
       ∀ c d, (s.mergeReqs p q).2.fifos.get c d =
         (s.fifos.get c d).filter (fun r => r.id ≠ next.id))) := by
  have hw := reachable_wf h
  obtain ⟨hrqmem, hrqid⟩ := findReq_some hp
  obtain ⟨hnmem, hnid⟩ := findReq_some hq
  have hnee : next.id ≠ rq.id := by rw [hnid, hrqid]; exact (Ne.symm hne)
  have hpn : p ≠ next.id := by rw [hnid]; exact hne
  have hone : idCount next.id s.fifos.all = 1 := by
    have hge : 0 < idxCount s next.id := by
      unfold idxCount
      rw [idCount_pos_iff]
      exact ⟨next, hnmem, rfl⟩
    have h1 := hw.idx_le next.id
    have h2 := hw.idx_fifo next.id
    unfold idxCount fifoCount at h2
    unfold idxCount at h1 hge
    omega
  set rq' : Request := { rq with expire := next.expire } with hrqdef
  have hid : rq'.id = rq.id := rfl
  have hpres : ∀ r : Request,
      ((fun r => if r.id = rq.id then rq' else r) r).id = r.id := by
    intro r
    by_cases hr : r.id = rq.id
    · simp [hr, hid]
    · simp [hr]
  have hpfind : s.sortList.find? (fun r => r.id = p) = some rq := hp
  unfold Sched.mergeReqs
  rw [hp, hq]
  dsimp only
  by_cases hlt : next.expire < rq.expire
  · rw [if_pos hlt]
    refine ⟨rfl, ?_, ?_, ?_, ?_⟩
    · intro r hr
      rcases List.mem_map.mp hr with ⟨y, hy, hxy⟩
      rw [← hxy, hpres]
      have := List.of_mem_filter hy
      simpa using this
    · intro r hr
      rw [Fifos.app_app] at hr
      rcases Fifos.mem_all_app hr with h1 | h1 | h1 | h1 <;>
        rcases mem_mergeMoveQueue h1 with h2 | h2
      · rw [h2, hid]; exact Ne.symm hnee
      · exact h2.2.2
      · rw [h2, hid]; exact Ne.symm hnee
      · exact h2.2.2
      · rw [h2, hid]; exact Ne.symm hnee
      · exact h2.2.2
      · rw [h2, hid]; exact Ne.symm hnee
      · exact h2.2.2
    · intro _
      constructor
      · show ((s.sortList.filter (fun r => r.id ≠ next.id)).map
          (fun r => if r.id = rq.id then rq' else r)).find?
            (fun r => r.id = p) = some rq'
        rw [find?_id_map_preserve hpres, find?_id_filter_ne hpn, hpfind]
        show some (if rq.id = rq.id then rq' else rq) = some rq'
        rw [if_pos rfl]
      · intro c d
        show ((s.fifos.app (fun l => insertAfter next.id rq'
            (l.filter (fun r => r.id ≠ rq.id)))).app
            (fun l => l.filter (fun r => r.id ≠ next.id))).get c d = _
        rw [Fifos.get_app, Fifos.get_app]
        apply mergeMoveQueue_eq_replace hnee hid
        calc idCount next.id (s.fifos.get c d)
            ≤ idCount next.id s.fifos.all := idCount_get_le_all ..
          _ = 1 := hone
    · intro hcon
      exact absurd hlt hcon
  · rw [if_neg hlt]
    refine ⟨rfl, ?_, ?_, ?_, ?_⟩
    · intro r hr
      have := List.of_mem_filter hr
      simpa using this
    · intro r hr
      rw [Fifos.all_app_filter] at hr
      have := List.of_mem_filter hr
      simpa using this
    · intro hcon
      exact absurd hcon hlt
    · intro _
      constructor
      · show (s.sortList.filter (fun r => r.id ≠ next.id)).find?
          (fun r => r.id = p) = some rq
        rw [find?_id_filter_ne hpn, hpfind]
      · intro c d
        show (s.fifos.app (fun l => l.filter (fun r => r.id ≠ next.id))).get
          c d = _
        rw [Fifos.get_app]

/-- A concrete reachable two-request state: id 0 at sector 100 expiring at
510, id 1 at sector 101 expiring at 500. -/
def mergeWitState : Sched :=
  (((initState.submit 10 ⟨100, 1, .read, .sync⟩).2).submit 0
    ⟨101, 1, .read, .sync⟩).2

/-- C3 witness: merging id 1 (earlier deadline) into id 0 re-stamps id 0
with expiration 500. -/
theorem merge_deadline_transfer_witness :
    (mergeWitState.mergeReqs 0 1).2.findReq 0 =
      some { id := 0, sector := 100, len := 1, dir := Dir.read,
             sync := SyncClass.sync, expire := 500 } :=
  have hp : mergeWitState.findReq 0 =
      some { id := 0, sector := 100, len := 1, dir := Dir.read,
             sync := SyncClass.sync, expire := 510 } := by decide
  have hq : mergeWitState.findReq 1 =
      some { id := 1, sector := 101, len := 1, dir := Dir.read,
             sync := SyncClass.sync, expire := 500 } := by decide
  ((merge_deadline_transfer
      (Reachable.submit 0 _ (Reachable.submit 10 _ Reachable.init))
      hp hq (by decide)).2.2.2.1 (by decide)).1

/-! ## C1: no loss, no duplication -/

theorem distancePick_eq_none {rev last : Nat} {l : List Request}
    (h : distancePick rev last l = none) : l = [] := by
  unfold distancePick at h
  cases hs : succIn last l with
  | some f =>
    rw [hs] at h
    cases hp : predIn last l with
    | some b => rw [hp] at h; dsimp only at h; split_ifs at h
    | none => rw [hp] at h; simp at h
  | none =>
    cases hp : predIn last l with
    | some b => rw [hs, hp] at h; simp at h
    | none =>
      by_contra hne
      obtain ⟨r, hr⟩ := List.exists_mem_of_ne_nil l hne
      by_cases hle : last ≤ r.sector
      · have hfil : l.filter (fun r => last ≤ r.sector) ≠ [] := by
          intro hnil
          have hm : r ∈ l.filter (fun r => last ≤ r.sector) :=
            List.mem_filter.mpr ⟨hr, by simp [hle]⟩
          rw [hnil] at hm
          simp at hm
        have hsome := pickMin_isSome (fun r => r.sector) hfil
        unfold succIn at hs
        rw [hs] at hsome
        simp at hsome
      · have hfil : l.filter (fun r => r.sector < last) ≠ [] := by
          intro hnil
          have hm : r ∈ l.filter (fun r => r.sector < last) :=
            List.mem_filter.mpr ⟨hr, by simp; omega⟩
          rw [hnil] at hm
          simp at hm
        have hsome := pickMin_isSome (fun r => last - r.sector) hfil
        unfold predIn at hp
        rw [hp] at hsome
        simp at hsome

theorem succIn_mem {last : Nat} {l : List Request} {f : Request}
    (h : succIn last l = some f) : f ∈ l ∧ last ≤ f.sector := by
  unfold succIn at h
  have hm := pickMin_mem h
  exact ⟨List.mem_of_mem_filter hm, by simpa using List.of_mem_filter hm⟩

theorem predIn_mem {last : Nat} {l : List Request} {b : Request}
    (h : predIn last l = some b) : b ∈ l ∧ b.sector < last := by
  unfold predIn at h
  have hm := pickMin_mem h
  exact ⟨List.mem_of_mem_filter hm, by simpa using List.of_mem_filter hm⟩

theorem distancePick_mem {rev last : Nat} {l : List Request} {r : Request}
    (h : distancePick rev last l = some r) : r ∈ l := by
  unfold distancePick at h
  cases hs : succIn last l with
  | some f =>
    rw [hs] at h
    cases hp : predIn last l with
    | some b =>
      rw [hp] at h
      dsimp only at h
      split_ifs at h <;> simp only [Option.some.injEq] at h <;> rw [← h]
      · exact (succIn_mem hs).1
      · exact (succIn_mem hs).1
      · exact (predIn_mem hp).1
    | none =>
      rw [hp] at h
      simp only [Option.some.injEq] at h
      rw [← h]
      exact (succIn_mem hs).1
  | none =>
    rw [hs] at h
    cases hp : predIn last l with
    | some b =>
      rw [hp] at h
      simp only [Option.some.injEq] at h
      rw [← h]
      exact (predIn_mem hp).1
    | none => rw [hp] at h; simp at h

theorem mem_of_mem_headList {x : Request} {l : List Request}
    (h : x ∈ l.head?.toList) : x ∈ l := by
  cases l with
  | nil => simp at h
  | cons y ys => simp at h; simp [h]

theorem mem_fronts {s : Sched} {r : Request} (h : r ∈ s.fronts) :
    r ∈ s.fifos.all := by
  unfold Sched.fronts at h
  unfold Fifos.all
  simp only [List.mem_append]
  rcases List.mem_append.mp h with h2 | h1
  · rcases List.mem_append.mp h2 with h3 | h1
    · rcases List.mem_append.mp h3 with h4 | h1
      · exact Or.inl (Or.inl (Or.inl (mem_of_mem_headList h4)))
      · exact Or.inl (Or.inl (Or.inr (mem_of_mem_headList h1)))
    · exact Or.inl (Or.inr (mem_of_mem_headList h1))
  · exact Or.inr (mem_of_mem_headList h1)

theorem forcedCandidate_mem {s : Sched} {now : Nat} {r : Request}
    (h : s.forcedCandidate now = some r) : r ∈ s.fifos.all := by
  unfold Sched.forcedCandidate at h
  exact mem_fronts (List.mem_of_mem_filter (pickMin_mem h))

/-- Whenever the Sector Index is non-empty, `dispatch_next` emits some
outstanding request and removes exactly its id from the index. -/
theorem dispatchNext_progress {s : Sched} (hw : Wf s) (now : Nat)
    (hne : s.sortList ≠ []) :
    ∃ r, (s.dispatchNext now).1 = some r ∧ (∃ x ∈ s.sortList, x.id = r.id) ∧
      (s.dispatchNext now).2.sortList =
        s.sortList.filter (fun x => x.id ≠ r.id) := by
  unfold Sched.dispatchNext
  rw [if_neg hne]
  cases hfc : s.forcedCandidate now with
  | some r =>
    refine ⟨r, rfl, ?_, rfl⟩
    exact ⟨r, hw.sub r (forcedCandidate_mem hfc), rfl⟩
  | none =>
    dsimp only
    split
    · rename_i hcond
      cases hdp : distancePick s.conf.revPenalty s.lastSector
          (s.sortList.filter (fun r => r.dir = Dir.write)) with
      | some w =>
        refine ⟨w, rfl, ?_, rfl⟩
        exact ⟨w, List.mem_of_mem_filter (distancePick_mem hdp), rfl⟩
      | none =>
        exfalso
        have hwe : ∃ x ∈ s.sortList, x.dir = Dir.write := hcond.2.2
        obtain ⟨x, hx, hxw⟩ := hwe
        have hfil : s.sortList.filter (fun r => r.dir = Dir.write) ≠ [] := by
          intro hnil
          have hm : x ∈ s.sortList.filter (fun r => r.dir = Dir.write) :=
            List.mem_filter.mpr ⟨hx, by simp [hxw]⟩
          rw [hnil] at hm
          simp at hm
        exact hfil (distancePick_eq_none hdp)
    · cases hdp : distancePick s.conf.revPenalty s.lastSector s.sortList with
      | some r =>
        refine ⟨r, rfl, ?_, rfl⟩
        exact ⟨r, distancePick_mem hdp, rfl⟩
      | none => exact absurd (distancePick_eq_none hdp) hne

/-- Repeated `dispatch_next` calls at the given times, collecting the
dispatched requests. -/
def dispatchTimes : List Nat → Sched → List Request × Sched
  | [], s => ([], s)
  | t :: ts, s =>
    ((s.dispatchNext t).1.toList ++ (dispatchTimes ts (s.dispatchNext t).2).1,
      (dispatchTimes ts (s.dispatchNext t).2).2)

theorem perm_id_cons_filter {rid : Nat} {l : List Request}
    (hcnt : idCount rid l = 1) {x : Request} (hx : x ∈ l) (hxid : x.id = rid) :
    (l.map (fun r => r.id)).Perm
      (rid :: (l.filter (fun r => r.id ≠ rid)).map (fun r => r.id)) := by
  induction l with
  | nil => simp at hx
  | cons y ys ih =>
    by_cases hy : y.id = rid
    · have h0 : idCount rid ys = 0 := by
        rw [idCount_cons, if_pos hy] at hcnt
        omega
      have habs := (idCount_eq_zero_iff ..).mp h0
      rw [List.filter_cons_of_neg (by simp [hy]), filter_ne_of_absent habs,
        List.map_cons, hy]
    · have hx' : x ∈ ys := by
        rcases List.mem_cons.mp hx with h1 | h1
        · exact absurd (h1 ▸ hxid) hy
        · exact h1
      have hcnt' : idCount rid ys = 1 := by
        rw [idCount_cons, if_neg hy] at hcnt
        omega
      rw [List.filter_cons_of_pos (by simp [hy]), List.map_cons, List.map_cons]
      exact ((ih hcnt' hx').cons y.id).trans (List.Perm.swap ..)

theorem length_filter_ne_of_count_one {rid : Nat} {l : List Request}
    (h : idCount rid l = 1) :
    (l.filter (fun r => r.id ≠ rid)).length + 1 = l.length := by
  induction l with
  | nil => simp [idCount] at h
  | cons y ys ih =>
    by_cases hy : y.id = rid
    · have h0 : idCount rid ys = 0 := by
        rw [idCount_cons, if_pos hy] at h
        omega
      rw [List.filter_cons_of_neg (by simp [hy]),
        filter_ne_of_absent ((idCount_eq_zero_iff ..).mp h0)]
      simp
    · have h1 : idCount rid ys = 1 := by
        rw [idCount_cons, if_neg hy] at h
        omega
      rw [List.filter_cons_of_pos (by simp [hy])]
      simp only [List.length_cons]
      have := ih h1
      omega

/-- Dispatching as many times as there are outstanding requests emits a
permutation of the outstanding ids and drains the Sector Index. -/
theorem dispatchTimes_perm (nows : List Nat) (s : Sched) (hw : Wf s)
    (hlen : s.sortList.length = nows.length) :
    ((dispatchTimes nows s).1.map (fun r => r.id)).Perm
        (s.sortList.map (fun r => r.id)) ∧
      (dispatchTimes nows s).2.sortList = [] := by
  induction nows generalizing s with
  | nil =>
    have hnil : s.sortList = [] := List.eq_nil_of_length_eq_zero hlen
    constructor
    · show (([] : List Request).map (fun r => r.id)).Perm _
      rw [hnil]
    · exact hnil
  | cons t ts ih =>
    have hne : s.sortList ≠ [] := by
      intro h0
      rw [h0] at hlen
      simp at hlen
    obtain ⟨r, h1, ⟨x, hx, hxid⟩, h2⟩ := dispatchNext_progress hw t hne
    have hw' := wf_dispatch hw t
    have hcnt : idCount r.id s.sortList = 1 := by
      have hpos : 0 < idCount r.id s.sortList :=
        (idCount_pos_iff ..).mpr ⟨x, hx, hxid⟩
      have hle := hw.idx_le r.id
      unfold idxCount at hle
      omega
    have hlen' : (s.dispatchNext t).2.sortList.length = ts.length := by
      rw [h2]
      have := length_filter_ne_of_count_one hcnt
      simp only [List.length_cons] at hlen
      omega
    obtain ⟨ihp, ihe⟩ := ih (s.dispatchNext t).2 hw' hlen'
    constructor
    · show ((((s.dispatchNext t).1.toList ++
          (dispatchTimes ts (s.dispatchNext t).2).1).map (fun r => r.id))).Perm _
      rw [h1]
      simp only [Option.toList_some, List.singleton_append, List.map_cons]
      have hperm2 := perm_id_cons_filter hcnt hx hxid
      rw [h2] at ihp
      exact ((ihp.cons r.id).trans hperm2.symm)
    · exact ihe

/-- Repeated `submit` calls. -/
def submitAll : List (Nat × SubmitArgs) → Sched → Sched
  | [], s => s
  | x :: rest, s => submitAll rest (s.submit x.1 x.2).2

theorem wf_submitAll {s : Sched} (hw : Wf s)
    (subs : List (Nat × SubmitArgs)) : Wf (submitAll subs s) := by
  induction subs generalizing s with
  | nil => exact hw
  | cons x rest ih => exact ih (wf_submit hw x.1 x.2)

theorem submitAll_ids (subs : List (Nat × SubmitArgs)) (s : Sched)
    (hv : ∀ x ∈ subs, x.2.len ≠ 0) :
    (submitAll subs s).sortList.map (fun r => r.id) =
        s.sortList.map (fun r => r.id) ++
          List.range' s.nextId subs.length ∧
      (submitAll subs s).nextId = s.nextId + subs.length := by
  induction subs generalizing s with
  | nil => simp [submitAll]
  | cons x rest ih =>
    have ha : x.2.len ≠ 0 := hv x (by simp)
    have h1 : ((s.submit x.1 x.2).2).sortList = s.sortList ++
        [{ id := s.nextId, sector := x.2.sector, len := x.2.len,
           dir := x.2.dir, sync := x.2.sync,
           expire := x.1 + s.conf.expire x.2.sync x.2.dir }] := by
      unfold Sched.submit
      rw [if_neg ha]
    have h2 : ((s.submit x.1 x.2).2).nextId = s.nextId + 1 := by
      unfold Sched.submit
      rw [if_neg ha]
    obtain ⟨ih1, ih2⟩ := ih (s.submit x.1 x.2).2
      (fun y hy => hv y (List.mem_cons_of_mem _ hy))
    constructor
    · show (submitAll rest (s.submit x.1 x.2).2).sortList.map (fun r => r.id) = _
      rw [ih1, h1, h2, List.map_append]
      simp only [List.map_cons, List.map_nil, List.length_cons,
        List.range'_succ, List.append_assoc, List.singleton_append]
    · show (submitAll rest (s.submit x.1 x.2).2).nextId = _
      rw [ih2, h2, List.length_cons]
      omega

/-- C1: after `N` submissions (with no merges and no cancels), calling
`dispatch_next` `N` times returns each submitted request id exactly once —
the dispatched ids are a permutation of the submitted ids — and the
`(N+1)`-th call returns idle. -/
theorem no_loss_no_duplication (subs : List (Nat × SubmitArgs))
    (nows : List Nat) (t : Nat) (hv : ∀ x ∈ subs, x.2.len ≠ 0)
    (hlen : nows.length = subs.length) :
    ((dispatchTimes nows (submitAll subs initState)).1.map
        (fun r => r.id)).Perm (List.range subs.length) ∧
      ((dispatchTimes nows (submitAll subs initState)).2.dispatchNext t).1 =
        none := by
  have hw := wf_submitAll wf_initState subs
  obtain ⟨hids, -⟩ := submitAll_ids subs initState hv
  have hids' : (submitAll subs initState).sortList.map (fun r => r.id) =
      List.range subs.length := by
    rw [hids]
    show List.map _ ([] : List Request) ++ List.range' 0 subs.length = _
    rw [List.range_eq_range']
    simp
  have hlen2 : (submitAll subs initState).sortList.length = nows.length := by
    have hml : ((submitAll subs initState).sortList.map
        (fun r => r.id)).length = subs.length := by
      rw [hids']
      exact List.length_range ..
    rw [List.length_map] at hml
    omega
  obtain ⟨hperm, hempty⟩ := dispatchTimes_perm nows _ hw hlen2
  refine ⟨hperm.trans (hids' ▸ List.Perm.refl _), ?_⟩
  unfold Sched.dispatchNext
  rw [if_pos hempty]

/-- C1 witness: two submissions, two dispatches, a third call is idle. -/
theorem no_loss_no_duplication_witness :
    ((dispatchTimes [0, 0] (submitAll
        [(0, ⟨100, 1, .read, .sync⟩), (0, ⟨5, 2, .write, .async⟩)]
        initState)).1.map (fun r => r.id)).Perm (List.range 2) ∧
      ((dispatchTimes [0, 0] (submitAll
        [(0, ⟨100, 1, .read, .sync⟩), (0, ⟨5, 2, .write, .async⟩)]
        initState)).2.dispatchNext 7).1 = none :=
  no_loss_no_duplication _ _ 7 (by decide) (by decide)

/-! ## C4: SCAN bound at `rev_penalty = 0` -/

/-- A `dispatch_next` call resolved by the distance heuristic: no expired
deadline forces it (step 2 does not fire) and the write-starvation override
(step 4) does not apply. -/
def distanceStep (s : Sched) (now : Nat) : Prop :=
  s.forcedCandidate now = none ∧
    ¬ (s.conf.fifoBatch ≤ s.batched ∧ s.conf.writesStarved ≤ s.starved ∧
        s.writeExists)

instance (s : Sched) (now : Nat) : Decidable (distanceStep s now) := by
  unfold distanceStep
  infer_instance

/-- A forward candidate: an outstanding request at
`sector ≥ last dispatched sector`. -/
def forwardExists (s : Sched) : Prop :=
  ∃ r ∈ s.sortList, s.lastSector ≤ r.sector

instance (s : Sched) : Decidable (forwardExists s) := by
  unfold forwardExists
  infer_instance

/-- Every call of the run is a distance-based dispatch (no deadline forcing,
no starvation override) and a forward candidate exists at the time of the
call. -/
def ScanRun : List Nat → Sched → Prop
  | [], _ => True
  | t :: ts, s => (distanceStep s t ∧ forwardExists s) ∧
      ScanRun ts (s.dispatchNext t).2

instance scanRunDec : (ts : List Nat) → (s : Sched) → Decidable (ScanRun ts s)
  | [], _ => .isTrue trivial
  | t :: ts, s =>
    have : Decidable (ScanRun ts (s.dispatchNext t).2) := scanRunDec ts _
    by unfold ScanRun; infer_instance

/-- With `rev_penalty = 0` a distance-based dispatch with a forward
candidate available always dispatches the forward candidate: the head never
reverses. -/
theorem distance_forward_step {s : Sched} {now : Nat}
    (hrev : s.conf.revPenalty = 0) (hds : distanceStep s now)
    (hfwd : forwardExists s) :
    ∃ f, succIn s.lastSector s.sortList = some f ∧
      (s.dispatchNext now).1 = some f ∧ s.lastSector ≤ f.sector ∧
      (s.dispatchNext now).2.lastSector = f.sector ∧
      (s.dispatchNext now).2.conf = s.conf := by
  obtain ⟨hfc, hnov⟩ := hds
  obtain ⟨x, hx, hxs⟩ := hfwd
  have hne : s.sortList ≠ [] := by
    intro h0
    rw [h0] at hx
    simp at hx
  have hfil : s.sortList.filter (fun r => s.lastSector ≤ r.sector) ≠ [] := by
    intro hnil
    have hm : x ∈ s.sortList.filter (fun r => s.lastSector ≤ r.sector) :=
      List.mem_filter.mpr ⟨hx, by simp [hxs]⟩
    rw [hnil] at hm
    simp at hm
  have hsome : (succIn s.lastSector s.sortList).isSome :=
    pickMin_isSome (fun r => r.sector) hfil
  obtain ⟨f, hf⟩ := Option.isSome_iff_exists.mp hsome
  have hdp : distancePick s.conf.revPenalty s.lastSector s.sortList =
      some f := by
    unfold distancePick
    rw [hf]
    cases hp : predIn s.lastSector s.sortList with
    | none => rfl
    | some b =>
      dsimp only
      rw [if_pos hrev]
  have hstep : s.dispatchNext now = (some f,
      { s.removeId f.id with
        lastSector := f.sector
        lastDir := dirOf s.lastSector f.sector
        batched := if s.lastDir = dirOf s.lastSector f.sector then
          s.batched + 1 else 1
        starved := if f.dir = Dir.write then 0 else s.starved + 1 }) := by
    unfold Sched.dispatchNext
    rw [if_neg hne, hfc]
    dsimp only
    rw [if_neg hnov, hdp]
  exact ⟨f, hf, by rw [hstep], (succIn_mem hf).2, by rw [hstep],
    by rw [hstep]; rfl⟩

/-- C4: with `rev_penalty = 0`, along any run of dispatches in which no
deadline-forced and no starvation-override dispatch occurs and a forward
candidate exists at each call, the dispatched sectors never decrease — a
backward dispatch never happens while a forward candidate exists. -/
theorem scan_no_reversal (nows : List Nat) : ∀ s : Sched,
    s.conf.revPenalty = 0 → ScanRun nows s →
    List.Chain' (· ≤ ·) (s.lastSector ::
      ((dispatchTimes nows s).1.map (fun r => r.sector))) := by
  induction nows with
  | nil =>
    intro s _ _
    simp [dispatchTimes]
  | cons t ts ih =>
    intro s hrev hrun
    obtain ⟨⟨hds, hfwd⟩, hrun'⟩ := hrun
    obtain ⟨f, hsucc, h1, hle, h2, h3⟩ := distance_forward_step hrev hds hfwd
    show List.Chain' _ (s.lastSector ::
      (((s.dispatchNext t).1.toList ++
        (dispatchTimes ts (s.dispatchNext t).2).1).map (fun r => r.sector)))
    rw [h1]
    simp only [Option.toList_some, List.singleton_append, List.map_cons]
    rw [List.chain'_cons]
    refine ⟨hle, ?_⟩
    have hch := ih (s.dispatchNext t).2 (by rw [h3]; exact hrev) hrun'
    rw [h2] at hch
    exact hch

/-- A two-read state with `rev_penalty := 0` for the SCAN witness. -/
def scanWitState : Sched :=
  (submitAll [(0, ⟨10, 1, .read, .sync⟩), (0, ⟨20, 1, .read, .sync⟩)]
    initState).configure .revPenaltyOpt 0

/-- C4 witness: two forward dispatches from sector 0 sweep 10 then 20. -/
theorem scan_no_reversal_witness :
    List.Chain' (· ≤ ·) (scanWitState.lastSector ::
      ((dispatchTimes [0, 0] scanWitState).1.map (fun r => r.sector))) :=
  scan_no_reversal [0, 0] scanWitState (by decide) (by decide)

/-! ## C5: write starvation (corrected) -/

/-- Three sync reads at sectors 10, 20, 30 and one sync write at sector
1000, submitted at time 0 into a fresh instance (`writes_starved` is at its
default 2, `fifo_batch` at its default 8). -/
def starveCE : Sched :=
  submitAll [(0, ⟨10, 1, .read, .sync⟩), (0, ⟨20, 1, .read, .sync⟩),
    (0, ⟨30, 1, .read, .sync⟩), (0, ⟨1000, 1, .write, .sync⟩)] initState

/-- C5 counterexample: with `writes_starved = 2` and a write continuously
outstanding (it is present before and still outstanding after), three
consecutive `dispatch_next` calls all dispatch reads — more than
`writes_starved` consecutive read dispatches occur and no write is forced,
because the starvation override is only consulted once the batch cutoff
(step 3) has been reached. -/
theorem starvation_bound_counterexample :
    starveCE.conf.writesStarved = 2 ∧
    (∃ r ∈ starveCE.sortList, r.dir = Dir.write) ∧
    ((dispatchTimes [0, 0, 0] starveCE).1.map (fun r => r.dir) =
      [Dir.read, Dir.read, Dir.read]) ∧
    ((dispatchTimes [0, 0, 0] starveCE).2.starved = 3) ∧
    (∃ r ∈ (dispatchTimes [0, 0, 0] starveCE).2.sortList,
      r.dir = Dir.write) := by
  refine ⟨by decide, by decide, by decide, by decide, by decide⟩

/-- C5 (amended): at a `dispatch_next` call at which the batch cutoff has
been reached, the starved counter has reached the starvation threshold, no
deadline has expired, and at least one write is outstanding, the call
dispatches the write nearest to the last dispatched sector (the distance
rule restricted to writes) and resets the starved counter to 0. -/
theorem write_starvation_override {s : Sched} (now : Nat)
    (hfc : s.forcedCandidate now = none)
    (hbatch : s.conf.fifoBatch ≤ s.batched)
    (hstarve : s.conf.writesStarved ≤ s.starved)
    (hwr : ∃ r ∈ s.sortList, r.dir = Dir.write) :
    ∃ w, (s.dispatchNext now).1 = some w ∧ w.dir = Dir.write ∧
      w ∈ s.sortList ∧
      distancePick s.conf.revPenalty s.lastSector
        (s.sortList.filter (fun r => r.dir = Dir.write)) = some w ∧
      (s.dispatchNext now).2.starved = 0 := by
  obtain ⟨x, hx, hxw⟩ := hwr
  have hne : s.sortList ≠ [] := by
    intro h0
    rw [h0] at hx
    simp at hx
  have hfil : s.sortList.filter (fun r => r.dir = Dir.write) ≠ [] := by
    intro hnil
    have hm : x ∈ s.sortList.filter (fun r => r.dir = Dir.write) :=
      List.mem_filter.mpr ⟨hx, by simp [hxw]⟩
    rw [hnil] at hm
    simp at hm
  cases hdp : distancePick s.conf.revPenalty s.lastSector
      (s.sortList.filter (fun r => r.dir = Dir.write)) with
  | none => exact absurd (distancePick_eq_none hdp) hfil
  | some w =>
    have hwmem := distancePick_mem hdp
    have hstep : s.dispatchNext now = (some w,
        { s.removeId w.id with
          lastSector := w.sector
          starved := 0 }) := by
      unfold Sched.dispatchNext
      rw [if_neg hne, hfc]
      dsimp only
      rw [if_pos ⟨hbatch, hstarve, x, hx, hxw⟩, hdp]
    refine ⟨w, by rw [hstep], ?_, List.mem_of_mem_filter hwmem, rfl,
      by rw [hstep]⟩
    have := List.of_mem_filter hwmem
    simpa using this

/-- A state at the starvation threshold with an outstanding write, for the
override witness. -/
def starveWitState : Sched :=
  { sortList := [⟨0, 50, 1, .write, .sync, 500⟩]
    fifos := ⟨[], [⟨0, 50, 1, .write, .sync, 500⟩], [], []⟩
    batched := 8
    starved := 2
    lastSector := 0
    lastDir := .fwd
    conf := initConf
    nextId := 1 }

/-- C5 witness: the override fires and dispatches the write, resetting the
starved counter. -/
theorem write_starvation_override_witness :
    ∃ w, (starveWitState.dispatchNext 0).1 = some w ∧ w.dir = Dir.write ∧
      w ∈ starveWitState.sortList ∧
      distancePick starveWitState.conf.revPenalty starveWitState.lastSector
        (starveWitState.sortList.filter (fun r => r.dir = Dir.write)) =
        some w ∧
      (starveWitState.dispatchNext 0).2.starved = 0 :=
  write_starvation_override 0 (by decide) (by decide) (by decide)
    ⟨⟨0, 50, 1, .write, .sync, 500⟩, by decide, rfl⟩

/-! ## C6: `peek_front` and the earliest expiration (corrected) -/

/-- `peek_front(class)`: the oldest entry of the class queue, not removed. -/
def Sched.peekFront (s : Sched) (c : SyncClass) (d : Dir) : Option Request :=
  (s.fifos.get c d).head?

/-- Submit a sync read (expire 500), shrink the sync-read expiry to 10 ms,
then submit another sync read at time 1 (expire 11). -/
def expireCE : Sched :=
  ((((initState.submit 0 ⟨100, 1, .read, .sync⟩).2).configure
    .syncReadExpire 10).submit 1 ⟨200, 1, .read, .sync⟩).2

/-- C6 counterexample: at a reachable state whose expiry duration was
changed between submissions, `peek_front` returns the oldest entry (expire
500) although a later entry of the same class expires earlier (11) — the
entry returned is not the one with minimal expiration. -/
theorem peek_front_counterexample :
    Reachable expireCE ∧
    expireCE.peekFront .sync .read =
      some ⟨0, 100, 1, .read, .sync, 500⟩ ∧
    ∃ e ∈ expireCE.fifos.get .sync .read, e.expire < 500 := by
  refine ⟨?_, by decide, ?_⟩
  · exact Reachable.submit 1 _
      (Reachable.configure _ _ (Reachable.submit 0 _ Reachable.init))
  · exact ⟨⟨1, 200, 1, .read, .sync, 11⟩, by decide, by decide⟩

/-- States reachable with no `configure` call and a monotone clock: the
index `t` is the largest time passed to any operation so far. -/
inductive ReachableNC : Nat → Sched → Prop
  | init : ReachableNC 0 initState
  | submit {t s} (now : Nat) (a : SubmitArgs) (hle : t ≤ now) :
      ReachableNC t s → ReachableNC now (Sched.submit s now a).2
  | dispatch {t s} (now : Nat) (hle : t ≤ now) :
      ReachableNC t s → ReachableNC now (Sched.dispatchNext s now).2
  | merge {t s} (p q : Nat) :
      ReachableNC t s → ReachableNC t (Sched.mergeReqs s p q).2
  | cancel {t s} (i : Nat) :
      ReachableNC t s → ReachableNC t (Sched.cancel s i).2

theorem reachableNC_reachable {t : Nat} {s : Sched} (h : ReachableNC t s) :
    Reachable s := by
  induction h with
  | init => exact Reachable.init
  | submit now a _ _ ih => exact Reachable.submit now a ih
  | dispatch now _ _ ih => exact Reachable.dispatch now ih
  | merge p q _ ih => exact Reachable.merge p q ih
  | cancel i _ ih => exact Reachable.cancel i ih

/-- Invariant of no-reconfiguration runs: every class queue is ordered by
non-decreasing expiration, every stamp is bounded by the clock plus the
class duration, and the tunables still hold their defaults. -/
structure SortedQueues (t : Nat) (s : Sched) : Prop where
  sorted : ∀ c d, (s.fifos.get c d).Pairwise (fun a b => a.expire ≤ b.expire)
  bounded : ∀ c d, ∀ e ∈ s.fifos.get c d, e.expire ≤ t + s.conf.expire c d
  conf_eq : s.conf = initConf

theorem sortedQueues_mono {t t' : Nat} {s : Sched} (h : SortedQueues t s)
    (hle : t ≤ t') : SortedQueues t' s := by
  refine ⟨h.sorted, ?_, h.conf_eq⟩
  intro c d e he
  have := h.bounded c d e he
  omega

theorem Fifos.get_update (f : Fifos) (c : SyncClass) (d : Dir)
    (g : List Request → List Request) (c' : SyncClass) (d' : Dir) :
    (f.update c d g).get c' d' =
      if c = c' ∧ d = d' then g (f.get c' d') else f.get c' d' := by
  cases c <;> cases d <;> cases c' <;> cases d' <;>
    simp [Fifos.update, Fifos.get]

theorem Fifos.mem_get_all {f : Fifos} {c : SyncClass} {d : Dir} {x : Request}
    (h : x ∈ f.get c d) : x ∈ f.all := by
  cases c <;> cases d <;>
    simp only [Fifos.get] at h <;>
    simp only [Fifos.all, List.mem_append] <;> tauto

theorem removeId_get (s : Sched) (i : Nat) (c : SyncClass) (d : Dir) :
    (s.removeId i).fifos.get c d =
      (s.fifos.get c d).filter (fun r => r.id ≠ i) :=
  Fifos.get_app ..

theorem mem_id_unique {i : Nat} {l : List Request} (hle : idCount i l ≤ 1)
    {a b : Request} (ha : a ∈ l) (hb : b ∈ l) (hai : a.id = i)
    (hbi : b.id = i) : a = b := by
  induction l with
  | nil => simp at ha
  | cons y ys ih =>
    rw [idCount_cons] at hle
    rcases List.mem_cons.mp ha with h1 | h1 <;>
      rcases List.mem_cons.mp hb with h2 | h2
    · rw [h1, h2]
    · exfalso
      have hyid : y.id = i := h1 ▸ hai
      have h0 : idCount i ys = 0 := by
        rw [if_pos hyid] at hle
        omega
      exact (idCount_eq_zero_iff ..).mp h0 b h2 hbi
    · exfalso
      have hyid : y.id = i := h2 ▸ hbi
      have h0 : idCount i ys = 0 := by
        rw [if_pos hyid] at hle
        omega
      exact (idCount_eq_zero_iff ..).mp h0 a h1 hai
    · refine ih ?_ h1 h2
      split_ifs at hle <;> omega

/-- Every `dispatch_next` outcome either leaves the state unchanged or is an
id-removal plus updates of the scalar head/counter fields. -/
theorem dispatchNext_cases (s : Sched) (now : Nat) :
    (s.dispatchNext now).2 = s ∨
    ∃ i ls ld b st, (s.dispatchNext now).2 =
      { s.removeId i with
        lastSector := ls
        lastDir := ld
        batched := b
        starved := st } := by
  unfold Sched.dispatchNext
  split
  · exact Or.inl rfl
  · cases s.forcedCandidate now with
    | some r =>
      exact Or.inr ⟨r.id, r.sector, s.lastDir, s.batched, s.starved, rfl⟩
    | none =>
      dsimp only
      split
      · cases distancePick s.conf.revPenalty s.lastSector
            (s.sortList.filter (fun r => r.dir = Dir.write)) with
        | some w =>
          exact Or.inr ⟨w.id, w.sector, s.lastDir, s.batched, 0, rfl⟩
        | none => exact Or.inl rfl
      · cases distancePick s.conf.revPenalty s.lastSector s.sortList with
        | some r =>
          exact Or.inr ⟨r.id, r.sector, dirOf s.lastSector r.sector,
            if s.lastDir = dirOf s.lastSector r.sector then s.batched + 1
              else 1,
            if r.dir = Dir.write then 0 else s.starved + 1, rfl⟩
        | none => exact Or.inl rfl

theorem sortedQueues_removeId {t : Nat} {s : Sched} (h : SortedQueues t s)
    (i : Nat) : SortedQueues t (s.removeId i) := by
  refine ⟨?_, ?_, h.conf_eq⟩
  · intro c d
    rw [removeId_get]
    exact (h.sorted c d).filter _
  · intro c d e he
    rw [removeId_get] at he
    exact h.bounded c d e (List.mem_of_mem_filter he)

theorem sortedQueues_submit {t : Nat} {s : Sched} (h : SortedQueues t s)
    {now : Nat} (hle : t ≤ now) (a : SubmitArgs) :
    SortedQueues now (s.submit now a).2 := by
  unfold Sched.submit
  split
  · exact sortedQueues_mono h hle
  · refine ⟨?_, ?_, h.conf_eq⟩
    · intro c d
      show ((s.fifos.update a.sync a.dir (fun q => q ++
        [{ id := s.nextId, sector := a.sector, len := a.len, dir := a.dir,
           sync := a.sync,
           expire := now + s.conf.expire a.sync a.dir }])).get c d).Pairwise _
      rw [Fifos.get_update]
      split
      · rename_i hcd
        obtain ⟨hc, hd⟩ := hcd
        rw [List.pairwise_append]
        refine ⟨h.sorted c d, by simp, ?_⟩
        intro x hx b hb
        simp only [List.mem_singleton] at hb
        subst hb
        show x.expire ≤ now + s.conf.expire a.sync a.dir
        have hbx := h.bounded c d x hx
        rw [hc, hd]
        omega
      · exact h.sorted c d
    · intro c d e he
      have he' : e ∈ (s.fifos.update a.sync a.dir (fun q => q ++
        [{ id := s.nextId, sector := a.sector, len := a.len, dir := a.dir,
           sync := a.sync,
           expire := now + s.conf.expire a.sync a.dir }])).get c d := he
      rw [Fifos.get_update] at he'
      show e.expire ≤ now + s.conf.expire c d
      split at he'
      · rename_i hcd
        obtain ⟨hc, hd⟩ := hcd
        rcases List.mem_append.mp he' with h1 | h1
        · have := h.bounded c d e h1
          omega
        · simp only [List.mem_singleton] at h1
          subst h1
          show now + s.conf.expire a.sync a.dir ≤ now + s.conf.expire c d
          rw [hc, hd]
      · have := h.bounded c d e he'
        omega

theorem sortedQueues_dispatch {t : Nat} {s : Sched} (h : SortedQueues t s)
    {now : Nat} (hle : t ≤ now) :
    SortedQueues now (s.dispatchNext now).2 := by
  rcases dispatchNext_cases s now with hc | ⟨i, ls, ld, b, st, hc⟩
  · rw [hc]
    exact sortedQueues_mono h hle
  · rw [hc]
    have h2 := sortedQueues_removeId (sortedQueues_mono h hle) i
    exact ⟨h2.sorted, h2.bounded, h2.conf_eq⟩

theorem sortedQueues_cancel {t : Nat} {s : Sched} (h : SortedQueues t s)
    (i : Nat) : SortedQueues t (s.cancel i).2 := by
  unfold Sched.cancel
  cases s.findReq i with
  | none => exact h
  | some r => exact sortedQueues_removeId h i

/-- The move branch of the merge handler keeps every queue sorted: the
re-stamped primary takes the secondary's position carrying the secondary's
expiration, so the queue's expiration sequence is a sublist of the old
one. -/
theorem sortedQueues_mergeMove {t : Nat} {s : Sched} (h : SortedQueues t s)
    (hw : Wf s) {rq next : Request} (_hrqmem : rq ∈ s.sortList)
    (hnmem : next ∈ s.sortList) (hne : next.id ≠ rq.id)
    (hone : idCount next.id s.fifos.all = 1) :
    SortedQueues t { s with
      sortList := (s.sortList.filter (fun r => r.id ≠ next.id)).map
        (fun r => if r.id = rq.id then { rq with expire := next.expire }
          else r)
      fifos := (s.fifos.app (fun l => insertAfter next.id
        { rq with expire := next.expire }
        (l.filter (fun r => r.id ≠ rq.id)))).app
        (fun l => l.filter (fun r => r.id ≠ next.id)) } := by
  have hid : ({ rq with expire := next.expire } : Request).id = rq.id := rfl
  have hgetq : ∀ c d, ((s.fifos.app (fun l => insertAfter next.id
      { rq with expire := next.expire }
      (l.filter (fun r => r.id ≠ rq.id)))).app
      (fun l => l.filter (fun r => r.id ≠ next.id))).get c d =
      ((s.fifos.get c d).filter (fun r => r.id ≠ rq.id)).map
        (fun r => if r.id = next.id then { rq with expire := next.expire }
          else r) := by
    intro c d
    rw [Fifos.get_app, Fifos.get_app]
    apply mergeMoveQueue_eq_replace hne hid
    calc idCount next.id (s.fifos.get c d)
        ≤ idCount next.id s.fifos.all := idCount_get_le_all ..
      _ = 1 := hone
  have hgexp : ∀ c d, ∀ z ∈ s.fifos.get c d,
      ((fun r => if r.id = next.id then { rq with expire := next.expire }
        else r) z).expire = z.expire := by
    intro c d z hz
    by_cases hzn : z.id = next.id
    · have hzs : z ∈ s.sortList := hw.sub z (Fifos.mem_get_all hz)
      have hle1 : idCount next.id s.sortList ≤ 1 := by
        have := hw.idx_le next.id
        unfold idxCount at this
        exact this
      have hzeq : z = next := mem_id_unique hle1 hzs hnmem hzn rfl
      show (if z.id = next.id then
        ({ rq with expire := next.expire } : Request) else z).expire = z.expire
      rw [if_pos hzn, hzeq]
    · show (if z.id = next.id then
        ({ rq with expire := next.expire } : Request) else z).expire = z.expire
      rw [if_neg hzn]
  refine ⟨?_, ?_, h.conf_eq⟩
  · intro c d
    show ((((s.fifos.app (fun l => insertAfter next.id
      { rq with expire := next.expire }
      (l.filter (fun r => r.id ≠ rq.id)))).app
      (fun l => l.filter (fun r => r.id ≠ next.id))).get c d)).Pairwise _
    rw [hgetq c d, List.pairwise_map]
    refine ((h.sorted c d).filter _).imp_of_mem ?_
    intro x y hx hy hxy
    have hx' := List.mem_of_mem_filter hx
    have hy' := List.mem_of_mem_filter hy
    show (if x.id = next.id then _ else x).expire ≤
      (if y.id = next.id then _ else y).expire
    rw [hgexp c d x hx', hgexp c d y hy']
    exact hxy
  · intro c d e he
    have he' : e ∈ ((s.fifos.app (fun l => insertAfter next.id
      { rq with expire := next.expire }
      (l.filter (fun r => r.id ≠ rq.id)))).app
      (fun l => l.filter (fun r => r.id ≠ next.id))).get c d := he
    rw [hgetq c d] at he'
    rcases List.mem_map.mp he' with ⟨z, hz, hze⟩
    have hz' := List.mem_of_mem_filter hz
    show e.expire ≤ t + s.conf.expire c d
    rw [← hze, hgexp c d z hz']
    exact h.bounded c d z hz'

theorem sortedQueues_merge {t : Nat} {s : Sched} (h : SortedQueues t s)
    (hw : Wf s) (p q : Nat) : SortedQueues t (s.mergeReqs p q).2 := by
  unfold Sched.mergeReqs
  cases hp : s.findReq p with
  | none => exact h
  | some rq =>
    cases hq : s.findReq q with
    | none => exact h
    | some next =>
      dsimp only
      split
      · rename_i hlt
        obtain ⟨hrqmem, hrqid⟩ := findReq_some hp
        obtain ⟨hnmem, hnid⟩ := findReq_some hq
        have hne : next.id ≠ rq.id := by
          intro he
          have hpq : p = q := by rw [← hrqid, ← hnid, he]
          rw [hpq, hq] at hp
          have hrn : next = rq := by injection hp
          rw [hrn] at hlt
          exact absurd hlt (lt_irrefl _)
        have hone : idCount next.id s.fifos.all = 1 := by
          have hge : 0 < idxCount s next.id := by
            unfold idxCount
            rw [idCount_pos_iff]
            exact ⟨next, hnmem, rfl⟩
          have h1 := hw.idx_le next.id
          have h2 := hw.idx_fifo next.id
          unfold idxCount fifoCount at h2
          unfold idxCount at h1 hge
          omega
        exact sortedQueues_mergeMove h hw hrqmem hnmem hne hone
      · refine ⟨?_, ?_, h.conf_eq⟩
        · intro c d
          show (((s.fifos.app (fun l => l.filter
            (fun r => r.id ≠ next.id))).get c d)).Pairwise _
          rw [Fifos.get_app]
          exact (h.sorted c d).filter _
        · intro c d e he
          have he' : e ∈ (s.fifos.app (fun l => l.filter
            (fun r => r.id ≠ next.id))).get c d := he
          rw [Fifos.get_app] at he'
          show e.expire ≤ t + s.conf.expire c d
          exact h.bounded c d e (List.mem_of_mem_filter he')

/-- Along any no-reconfiguration run the queues stay sorted by
expiration. -/
theorem reachableNC_sorted {t : Nat} {s : Sched} (h : ReachableNC t s) :
    SortedQueues t s := by
  induction h with
  | init =>
    refine ⟨?_, ?_, rfl⟩
    · intro c d
      cases c <;> cases d <;> exact List.Pairwise.nil
    · intro c d e he
      cases c <;> cases d <;> simp [initState, Fifos.get] at he
  | submit now a hle _ ih => exact sortedQueues_submit ih hle a
  | dispatch now hle _ ih => exact sortedQueues_dispatch ih hle
  | merge p q hr ih =>
    exact sortedQueues_merge ih (reachable_wf (reachableNC_reachable hr)) p q
  | cancel i _ ih => exact sortedQueues_cancel ih i

/-- C6 (amended): in every state reachable with a monotone clock and
without runtime changes to the expiry durations, `peek_front` of a
non-empty class queue returns an entry with the minimal expiration time
among the entries of that class queue. -/
theorem peek_front_min_no_reconfig {t : Nat} {s : Sched}
    (h : ReachableNC t s) (c : SyncClass) (d : Dir) {r : Request}
    (hpeek : s.peekFront c d = some r) :
    ∀ e ∈ s.fifos.get c d, r.expire ≤ e.expire := by
  have hs := (reachableNC_sorted h).sorted c d
  unfold Sched.peekFront at hpeek
  cases hq : s.fifos.get c d with
  | nil =>
    rw [hq] at hpeek
    simp at hpeek
  | cons y ys =>
    rw [hq] at hpeek hs
    simp only [List.head?_cons, Option.some.injEq] at hpeek
    subst hpeek
    intro e he
    rcases List.mem_cons.mp he with h1 | h1
    · rw [h1]
    · exact (List.pairwise_cons.mp hs).1 e h1

/-- C6 witness: a single-submission no-reconfiguration state; the front
entry (expire 500) is minimal, checked against itself. -/
theorem peek_front_min_no_reconfig_witness :
    (⟨0, 100, 1, .read, .sync, 500⟩ : Request).expire ≤
      (⟨0, 100, 1, .read, .sync, 500⟩ : Request).expire :=
  peek_front_min_no_reconfig
    (ReachableNC.submit 0 ⟨100, 1, .read, .sync⟩ (le_refl 0) ReachableNC.init)
    .sync .read (by decide) ⟨0, 100, 1, .read, .sync, 500⟩ (by decide)
